import Mathlib

/-
Verification of the configuration-manager subsystem (config_manager.py):
path resolution, access checking, privilege elevation, read/write with
backup, restore, listing and validation.  The filesystem, the process
clock and the privileged helper are modelled as explicit state; the
YAML/JSON codecs (library calls in the source) are modelled from the
specification as executable encoders and parsers over a document type.
-/

/-! ### Basic character and numeral helpers -/

/-- The ten decimal digit characters. -/
def decChars : List Char := ['0','1','2','3','4','5','6','7','8','9']

/-- Render a single decimal digit as a character. -/
def digitChar (d : Nat) : Char :=
  if d = 0 then '0' else if d = 1 then '1' else if d = 2 then '2' else if d = 3 then '3'
  else if d = 4 then '4' else if d = 5 then '5' else if d = 6 then '6' else if d = 7 then '7'
  else if d = 8 then '8' else '9'

/-- Parse a decimal digit character. -/
def charDigit (c : Char) : Option Nat :=
  if c = '0' then some 0 else if c = '1' then some 1 else if c = '2' then some 2
  else if c = '3' then some 3 else if c = '4' then some 4 else if c = '5' then some 5
  else if c = '6' then some 6 else if c = '7' then some 7 else if c = '8' then some 8
  else if c = '9' then some 9 else none

/-- Decimal digits of `n`, most significant first; `fuel` bounds the recursion. -/
def natDigitsF : Nat → Nat → List Char
  | 0, _ => []
  | fuel+1, n => if n < 10 then [digitChar n] else natDigitsF fuel (n / 10) ++ [digitChar (n % 10)]

/-- Decimal rendering of a natural number. -/
def natRender (n : Nat) : List Char := natDigitsF (n+1) n

/-- Decimal rendering of an integer (Python `str` of an `int`). -/
def intRender (n : Int) : List Char :=
  if n < 0 then '-' :: natRender n.natAbs else natRender n.natAbs

/-- Decimal rendering of an integer as a `String`. -/
def intStr (n : Int) : String := ⟨intRender n⟩

/-- Accumulating decimal parser over digit characters. -/
def goDigits : List Char → Nat → Option Nat
  | [], acc => some acc
  | c :: rest, acc =>
    match charDigit c with
    | some d => goDigits rest (acc * 10 + d)
    | none => none

/-- Parse a nonempty all-digit character list as a natural number. -/
def parseNatChars (cs : List Char) : Option Nat :=
  match cs with
  | [] => none
  | _ => goDigits cs 0

/-- Parse an optionally `-`-signed decimal integer. -/
def parseIntChars : List Char → Option Int
  | [] => none
  | c :: rest =>
    if c = '-' then (parseNatChars rest).map (fun m => -(m : Int))
    else (parseNatChars (c :: rest)).map (fun m => (m : Int))

/-! ### List-of-characters string helpers -/

/-- `frontB a l` holds when `a` is an initial segment of `l`. -/
def frontB : List Char → List Char → Bool
  | [], _ => true
  | _ :: _, [] => false
  | a :: as, b :: bs => a == b && frontB as bs

/-- Does `s` start with `pre`? -/
def startsW (s pre : String) : Bool := frontB pre.data s.data

/-- Does `s` end with `suf`? -/
def endsW (s suf : String) : Bool := frontB suf.data.reverse s.data.reverse

/-- Python string comparison: lexicographic by code point. -/
def strLtB : List Char → List Char → Bool
  | [], [] => false
  | [], _ :: _ => true
  | _ :: _, [] => false
  | a :: as, b :: bs =>
    if a.toNat < b.toNat then true
    else if b.toNat < a.toNat then false
    else strLtB as bs

/-- Insert into a descending-sorted list (Python `sorted(reverse=True)` building block). -/
def insertDesc (x : String) : List String → List String
  | [] => [x]
  | y :: ys => if strLtB y.data x.data then x :: y :: ys else y :: insertDesc x ys

/-- Sort descending by code-point order, as Python `sorted(xs, reverse=True)`. -/
def sortDesc : List String → List String
  | [] => []
  | x :: xs => insertDesc x (sortDesc xs)

/-- Split a character list at newline characters. -/
def splitNL : List Char → List (List Char)
  | [] => [[]]
  | c :: rest =>
    if c = '\n' then [] :: splitNL rest
    else
      match splitNL rest with
      | l :: ls => (c :: l) :: ls
      | [] => [[c]]

/-- Join lines, terminating each with a newline. -/
def joinNL (ls : List (List Char)) : List Char := ls.flatMap (fun l => l ++ ['\n'])

/-- Drop a single trailing empty line (produced by a terminating newline). -/
def dropTrailingEmpty (ls : List (List Char)) : List (List Char) :=
  match ls.getLast? with
  | some [] => ls.dropLast
  | _ => ls

/-! ### Path helpers (`pathlib` behaviour on POSIX path strings) -/

/-- `Path(p).parent` as a string: all of `p` before its last component. -/
def parentDir (p : String) : String :=
  let rev := p.data.reverse.dropWhile (fun c => c != '/')
  match rev with
  | [] => "."
  | ['/'] => "/"
  | _ :: rest => ⟨rest.reverse⟩

/-- `Path(p).name`: the last component of `p`. -/
def fileName (p : String) : String := ⟨(p.data.reverse.takeWhile (fun c => c != '/')).reverse⟩

/-- `Path(p).stem`: the last component without its final extension.  The
extension is the text from the last dot onwards, present only when that dot
is neither the first nor the last character of the name. -/
def stem (p : String) : String :=
  let cs := (fileName p).data
  let rev := cs.reverse
  match rev.dropWhile (fun c => c != '.') with
  | '.' :: rest =>
    if rev.head? = some '.' then ⟨cs⟩
    else if rest = [] then ⟨cs⟩
    else ⟨rest.reverse⟩
  | _ => ⟨cs⟩

/-! ### Association-list update -/

/-- Update (or append) the binding of `k` in an association list. -/
def setA {α : Type} : List (String × α) → String → α → List (String × α)
  | [], k, v => [(k, v)]
  | (k2, v2) :: rest, k, v =>
    if k2 = k then (k, v) :: rest else (k2, v2) :: setA rest k v

/-! ### Documents

Configuration content: an untyped, order-sensitive associative document
(scalars, sequences, and key-ordered mappings). -/

/-- A scalar configuration value. -/
inductive Scalar where
  | snull
  | sbool (b : Bool)
  | sint (n : Int)
  | sstr (s : String)
deriving DecidableEq

mutual
/-- A configuration document (the `Dict`/list/scalar tree the manager reads and writes). -/
inductive Doc where
  | scl (s : Scalar)
  | arr (xs : DocList)
  | obj (kvs : DocMap)
/-- A sequence of documents. -/
inductive DocList where
  | nil
  | cons (hd : Doc) (tl : DocList)
/-- A key-ordered mapping from strings to documents. -/
inductive DocMap where
  | nil
  | cons (k : String) (v : Doc) (tl : DocMap)
end

/- Decidable equality for the mutual document types. -/
mutual
def decEqDoc : (a b : Doc) → Decidable (a = b)
  | .scl x, .scl y =>
    match decEq x y with
    | isTrue h => isTrue (congrArg Doc.scl h)
    | isFalse h => isFalse (fun hh => h (by injection hh))
  | .scl _, .arr _ => isFalse (fun h => Doc.noConfusion h)
  | .scl _, .obj _ => isFalse (fun h => Doc.noConfusion h)
  | .arr _, .scl _ => isFalse (fun h => Doc.noConfusion h)
  | .arr x, .arr y =>
    match decEqDocList x y with
    | isTrue h => isTrue (congrArg Doc.arr h)
    | isFalse h => isFalse (fun hh => h (by injection hh))
  | .arr _, .obj _ => isFalse (fun h => Doc.noConfusion h)
  | .obj _, .scl _ => isFalse (fun h => Doc.noConfusion h)
  | .obj _, .arr _ => isFalse (fun h => Doc.noConfusion h)
  | .obj x, .obj y =>
    match decEqDocMap x y with
    | isTrue h => isTrue (congrArg Doc.obj h)
    | isFalse h => isFalse (fun hh => h (by injection hh))
def decEqDocList : (a b : DocList) → Decidable (a = b)
  | .nil, .nil => isTrue rfl
  | .nil, .cons _ _ => isFalse (fun h => DocList.noConfusion h)
  | .cons _ _, .nil => isFalse (fun h => DocList.noConfusion h)
  | .cons d1 t1, .cons d2 t2 =>
    match decEqDoc d1 d2, decEqDocList t1 t2 with
    | isTrue h1, isTrue h2 => isTrue (by rw [h1, h2])
    | isFalse h1, _ => isFalse (fun hh => h1 (by injection hh))
    | _, isFalse h2 => isFalse (fun hh => h2 (by injection hh))
def decEqDocMap : (a b : DocMap) → Decidable (a = b)
  | .nil, .nil => isTrue rfl
  | .nil, .cons _ _ _ => isFalse (fun h => DocMap.noConfusion h)
  | .cons _ _ _, .nil => isFalse (fun h => DocMap.noConfusion h)
  | .cons k1 v1 t1, .cons k2 v2 t2 =>
    match decEq k1 k2, decEqDoc v1 v2, decEqDocMap t1 t2 with
    | isTrue h1, isTrue h2, isTrue h3 => isTrue (by rw [h1, h2, h3])
    | isFalse h1, _, _ => isFalse (fun hh => h1 (by injection hh))
    | _, isFalse h2, _ => isFalse (fun hh => h2 (by injection hh))
    | _, _, isFalse h3 => isFalse (fun hh => h3 (by injection hh))
end

instance : DecidableEq Doc := decEqDoc

instance : DecidableEq DocList := decEqDocList

instance : DecidableEq DocMap := decEqDocMap

/-- Python truthiness of a document: `None`, `False`, `0`, `""`, `[]` and
an empty mapping are falsy (`yaml.safe_load(f) or {}` in the source). -/
def isFalsy : Doc → Bool
  | .scl .snull => true
  | .scl (.sbool b) => !b
  | .scl (.sint n) => n == 0
  | .scl (.sstr s) => s == ""
  | .arr .nil => true
  | .obj .nil => true
  | _ => false

/-! ### YAML codec

Modelled from the spec: the source delegates to `yaml.dump(data,
default_flow_style=False, sort_keys=False)` and `yaml.safe_load`, library
code not in the repository.  The model is an executable block-style
encoder and parser over `Doc`: mappings render as `"key": value` lines,
sequences as `-` item lines, nested blocks indent by two spaces, scalars
render inline, and strings are always quoted with escaping.  Encoding is
deterministic and preserves key order; empty content decodes to the empty
document. -/

/-- A value renderable inline on a single line: a scalar or an empty container. -/
inductive IVal where
  | inull
  | ibool (b : Bool)
  | iint (n : Int)
  | istr (s : String)
  | iarr0
  | iobj0
deriving DecidableEq

/-- The document denoted by an inline value. -/
def ivalDoc : IVal → Doc
  | .inull => .scl .snull
  | .ibool b => .scl (.sbool b)
  | .iint n => .scl (.sint n)
  | .istr s => .scl (.sstr s)
  | .iarr0 => .arr .nil
  | .iobj0 => .obj .nil

/-- The inline value of a scalar. -/
def sIVal : Scalar → IVal
  | .snull => .inull
  | .sbool b => .ibool b
  | .sint n => .iint n
  | .sstr s => .istr s

/-- One line of block-style output, before indentation. -/
inductive Tok where
  | bare (v : IVal)
  | item
  | itemVal (v : IVal)
  | key (k : String)
  | keyVal (k : String) (v : IVal)
deriving DecidableEq

/-- A line: indentation width paired with its content. -/
abbrev Line : Type := Nat × Tok

/-- Escape a string body for quoting: `"`, `\` and newline get backslash escapes. -/
def escapeChars : List Char → List Char
  | [] => []
  | c :: rest =>
    if c = '"' then '\\' :: '"' :: escapeChars rest
    else if c = '\\' then '\\' :: '\\' :: escapeChars rest
    else if c = '\n' then '\\' :: 'n' :: escapeChars rest
    else c :: escapeChars rest

/-- Scan a quoted-string body up to the closing quote, undoing escapes;
returns the body and the text after the closing quote. -/
def scanQ : List Char → Option (List Char × List Char)
  | [] => none
  | c :: rest =>
    if c = '\\' then
      match rest with
      | [] => none
      | d :: rest2 =>
        if d = '"' then (scanQ rest2).map (fun p => ('"' :: p.1, p.2))
        else if d = '\\' then (scanQ rest2).map (fun p => ('\\' :: p.1, p.2))
        else if d = 'n' then (scanQ rest2).map (fun p => ('\n' :: p.1, p.2))
        else none
    else if c = '"' then some ([], rest)
    else (scanQ rest).map (fun p => (c :: p.1, p.2))

/-- Render a quoted string. -/
def quoteStr (s : String) : List Char := '"' :: escapeChars s.data ++ ['"']

/-- Render an inline value. -/
def renderIVal : IVal → List Char
  | .inull => "null".data
  | .ibool true => "true".data
  | .ibool false => "false".data
  | .iint n => intRender n
  | .istr s => quoteStr s
  | .iarr0 => "[]".data
  | .iobj0 => "\x7b\x7d".data

/-- Render a line's content. -/
def renderTok : Tok → List Char
  | .bare v => renderIVal v
  | .item => ['-']
  | .itemVal v => '-' :: ' ' :: renderIVal v
  | .key k => quoteStr k ++ [':']
  | .keyVal k v => quoteStr k ++ ':' :: ' ' :: renderIVal v

/-- Render one line with its indentation. -/
def renderLine (l : Line) : List Char := List.replicate l.1 ' ' ++ renderTok l.2

/- Render a document as lines: the indented block-style body.
An inline document occupies a single bare line. -/
mutual
/-- Lines of one sequence item at indent `i`. -/
def itemL : Doc → Nat → List Line
  | .scl s, i => [(i, .itemVal (sIVal s))]
  | .arr .nil, i => [(i, .itemVal .iarr0)]
  | .obj .nil, i => [(i, .itemVal .iobj0)]
  | .arr (.cons x xs), i => (i, .item) :: (itemL x (i+2) ++ listL xs (i+2))
  | .obj (.cons k v m), i => (i, .item) :: (keyL k v (i+2) ++ mapL m (i+2))
/-- Lines of one mapping entry at indent `i`. -/
def keyL : String → Doc → Nat → List Line
  | k, .scl s, i => [(i, .keyVal k (sIVal s))]
  | k, .arr .nil, i => [(i, .keyVal k .iarr0)]
  | k, .obj .nil, i => [(i, .keyVal k .iobj0)]
  | k, .arr (.cons x xs), i => (i, .key k) :: (itemL x (i+2) ++ listL xs (i+2))
  | k, .obj (.cons k2 v m), i => (i, .key k) :: (keyL k2 v (i+2) ++ mapL m (i+2))
/-- Lines of a sequence body at indent `i`. -/
def listL : DocList → Nat → List Line
  | .nil, _ => []
  | .cons d tl, i => itemL d i ++ listL tl i
/-- Lines of a mapping body at indent `i`. -/
def mapL : DocMap → Nat → List Line
  | .nil, _ => []
  | .cons k v tl, i => keyL k v i ++ mapL tl i
end

/-- Lines of a whole document. -/
def docLines : Doc → List Line
  | .scl s => [(0, .bare (sIVal s))]
  | .arr .nil => [(0, .bare .iarr0)]
  | .obj .nil => [(0, .bare .iobj0)]
  | .arr (.cons x xs) => itemL x 0 ++ listL xs 0
  | .obj (.cons k v m) => keyL k v 0 ++ mapL m 0

/-- Encode a document in the primary (YAML) content format. -/
def yamlEncode (d : Doc) : String := ⟨joinNL ((docLines d).map renderLine)⟩

/-- Leading spaces of a line: their count and the rest. -/
def splitSpaces : List Char → Nat × List Char
  | [] => (0, [])
  | c :: rest =>
    if c = ' ' then
      let p := splitSpaces rest
      (p.1 + 1, p.2)
    else (0, c :: rest)

/-- Parse an inline value: a quoted string, an integer, or a literal. -/
def parseIVal (cs : List Char) : Option IVal :=
  match cs with
  | [] => none
  | c :: rest =>
    if c = '"' then
      match scanQ rest with
      | some (s, []) => some (.istr ⟨s⟩)
      | _ => none
    else
      match parseIntChars (c :: rest) with
      | some n => some (.iint n)
      | none =>
        if c :: rest = "null".data then some .inull
        else if c :: rest = "true".data then some (.ibool true)
        else if c :: rest = "false".data then some (.ibool false)
        else if c :: rest = "[]".data then some .iarr0
        else if c :: rest = "\x7b\x7d".data then some .iobj0
        else none

/-- Parse a line's content after its indentation. -/
def parseTok (cs : List Char) : Option Tok :=
  match cs with
  | [] => none
  | c :: rest =>
    if c = '-' then
      match rest with
      | [] => some .item
      | c2 :: rest2 =>
        if c2 = ' ' then (parseIVal rest2).map .itemVal
        else (parseIVal (c :: c2 :: rest2)).map .bare
    else if c = '"' then
      match scanQ rest with
      | some (k, []) => some (.bare (.istr ⟨k⟩))
      | some (k, [':']) => some (.key ⟨k⟩)
      | some (k, ':' :: ' ' :: rest2) => (parseIVal rest2).map (.keyVal ⟨k⟩)
      | _ => none
    else (parseIVal (c :: rest)).map .bare

/-- Parse one physical line into indentation and content. -/
def parseLine (cs : List Char) : Option Line :=
  let p := splitSpaces cs
  (parseTok p.2).map (fun t => (p.1, t))

/-- Split file content into parsed lines. -/
def toLines (s : String) : Option (List Line) :=
  (dropTrailingEmpty (splitNL s.data)).mapM parseLine

/-- Does the next line open a sequence item at indent `i`? -/
def isItemHeadB : List Line → Nat → Bool
  | (j, Tok.item) :: _, i => j == i
  | (j, Tok.itemVal _) :: _, i => j == i
  | _, _ => false

/-- Does the next line open a mapping entry at indent `i`? -/
def isMapHeadB : List Line → Nat → Bool
  | (j, Tok.key _) :: _, i => j == i
  | (j, Tok.keyVal _ _) :: _, i => j == i
  | _, _ => false

/- Block parser over lines, by fuel: one item, one entry, a sequence tail,
a mapping tail, and a whole nested node at a given indent. -/
mutual
def parseOneItem : Nat → List Line → Nat → Option (Doc × List Line)
  | 0, _, _ => none
  | fuel+1, ls, i =>
    match ls with
    | (j, Tok.itemVal v) :: rest => if j = i then some (ivalDoc v, rest) else none
    | (j, Tok.item) :: rest => if j = i then parseNode fuel rest (i+2) else none
    | _ => none
  termination_by structural fuel _ _ => fuel
def parseOneEntry : Nat → List Line → Nat → Option ((String × Doc) × List Line)
  | 0, _, _ => none
  | fuel+1, ls, i =>
    match ls with
    | (j, Tok.keyVal k v) :: rest => if j = i then some ((k, ivalDoc v), rest) else none
    | (j, Tok.key k) :: rest =>
      if j = i then (parseNode fuel rest (i+2)).map (fun p => ((k, p.1), p.2)) else none
    | _ => none
  termination_by structural fuel _ _ => fuel
def parseSeqTail : Nat → List Line → Nat → Option (DocList × List Line)
  | 0, _, _ => none
  | fuel+1, ls, i =>
    if isItemHeadB ls i then
      match parseOneItem fuel ls i with
      | some (d, rest) =>
        match parseSeqTail fuel rest i with
        | some (xs, rest2) => some (.cons d xs, rest2)
        | none => none
      | none => none
    else some (.nil, ls)
  termination_by structural fuel _ _ => fuel
def parseMapTail : Nat → List Line → Nat → Option (DocMap × List Line)
  | 0, _, _ => none
  | fuel+1, ls, i =>
    if isMapHeadB ls i then
      match parseOneEntry fuel ls i with
      | some (e, rest) =>
        match parseMapTail fuel rest i with
        | some (m, rest2) => some (.cons e.1 e.2 m, rest2)
        | none => none
      | none => none
    else some (.nil, ls)
  termination_by structural fuel _ _ => fuel
def parseNode : Nat → List Line → Nat → Option (Doc × List Line)
  | 0, _, _ => none
  | fuel+1, ls, i =>
    if isItemHeadB ls i then (parseSeqTail fuel ls i).map (fun p => (Doc.arr p.1, p.2))
    else if isMapHeadB ls i then (parseMapTail fuel ls i).map (fun p => (Doc.obj p.1, p.2))
    else none
  termination_by structural fuel _ _ => fuel
end

/-- Parse a list of lines as a whole document. -/
def parseDocLines (ls : List Line) : Option Doc :=
  match ls with
  | [] => none
  | (i, t) :: tail =>
    match t, tail with
    | Tok.bare v, [] => if i = 0 then some (ivalDoc v) else none
    | _, _ =>
      match parseNode (3 * ((i, t) :: tail).length + 3) ((i, t) :: tail) 0 with
      | some (d, []) => some d
      | _ => none

/-- Parse primary-format (YAML) content; empty content is the null document. -/
def yamlParse (s : String) : Option Doc :=
  match toLines s with
  | none => none
  | some [] => some (Doc.scl .snull)
  | some ls => parseDocLines ls

/-- `x or {}` applied to a decoded document (Python truthiness). -/
def orEmpty (d : Doc) : Doc := if isFalsy d then Doc.obj .nil else d

/-- The yaml-branch decoding performed by `read_config`:
`yaml.safe_load(f) or {}`, with any parse error caught and turned into `{}`. -/
def readDecodeYaml (s : String) : Doc :=
  match yamlParse s with
  | some d => orEmpty d
  | none => Doc.obj .nil

/-! ### JSON codec (secondary content format, modelled from the spec) -/

/-- Drop JSON whitespace. -/
def skipWs (cs : List Char) : List Char :=
  cs.dropWhile (fun c => c == ' ' || c == '\n' || c == '\t' || c == '\r')

/-- Strip an expected literal from the front. -/
def stripLit : List Char → List Char → Option (List Char)
  | [], cs => some cs
  | _ :: _, [] => none
  | a :: as, c :: cs => if a = c then stripLit as cs else none

/-- Parse a JSON integer token. -/
def jInt (cs : List Char) : Option (Int × List Char) :=
  match cs with
  | '-' :: r =>
    let ds := r.takeWhile (fun c => (charDigit c).isSome)
    (parseNatChars ds).map (fun m => (-(m : Int), r.drop ds.length))
  | _ =>
    let ds := cs.takeWhile (fun c => (charDigit c).isSome)
    (parseNatChars ds).map (fun m => ((m : Int), cs.drop ds.length))

mutual
def jVal : Nat → List Char → Option (Doc × List Char)
  | 0, _ => none
  | fuel+1, cs0 =>
    match skipWs cs0 with
    | '"' :: rest => (scanQ rest).map (fun p => (Doc.scl (.sstr ⟨p.1⟩), p.2))
    | '[' :: rest =>
      (match skipWs rest with
       | ']' :: r2 => some (Doc.arr .nil, r2)
       | r =>
         match jVal fuel r with
         | some (d, r2) =>
           match jArrTail fuel r2 with
           | some (xs, r3) => some (Doc.arr (.cons d xs), r3)
           | none => none
         | none => none)
    | '\x7b' :: rest =>
      (match skipWs rest with
       | '\x7d' :: r2 => some (Doc.obj .nil, r2)
       | r =>
         match jEntry fuel r with
         | some (e, r2) =>
           match jObjTail fuel r2 with
           | some (m, r3) => some (Doc.obj (.cons e.1 e.2 m), r3)
           | none => none
         | none => none)
    | cs =>
      match stripLit "null".data cs with
      | some r => some (Doc.scl .snull, r)
      | none =>
        match stripLit "true".data cs with
        | some r => some (Doc.scl (.sbool true), r)
        | none =>
          match stripLit "false".data cs with
          | some r => some (Doc.scl (.sbool false), r)
          | none => (jInt cs).map (fun p => (Doc.scl (.sint p.1), p.2))
def jEntry : Nat → List Char → Option ((String × Doc) × List Char)
  | 0, _ => none
  | fuel+1, cs0 =>
    match skipWs cs0 with
    | '"' :: rest =>
      match scanQ rest with
      | some (k, r) =>
        match skipWs r with
        | ':' :: r2 =>
          match jVal fuel r2 with
          | some (d, r3) => some ((⟨k⟩, d), r3)
          | none => none
        | _ => none
      | none => none
    | _ => none
def jArrTail : Nat → List Char → Option (DocList × List Char)
  | 0, _ => none
  | fuel+1, cs0 =>
    match skipWs cs0 with
    | ']' :: r => some (.nil, r)
    | ',' :: r =>
      match jVal fuel r with
      | some (d, r2) =>
        match jArrTail fuel r2 with
        | some (xs, r3) => some (.cons d xs, r3)
        | none => none
      | none => none
    | _ => none
def jObjTail : Nat → List Char → Option (DocMap × List Char)
  | 0, _ => none
  | fuel+1, cs0 =>
    match skipWs cs0 with
    | '\x7d' :: r => some (.nil, r)
    | ',' :: r =>
      match jEntry fuel r with
      | some (e, r2) =>
        match jObjTail fuel r2 with
        | some (m, r3) => some (.cons e.1 e.2 m, r3)
        | none => none
      | none => none
    | _ => none
end

/-- Parse secondary-format (JSON) content. -/
def jsonParse (s : String) : Option Doc :=
  match jVal (s.data.length + 1) s.data with
  | some (d, rest) => if skipWs rest = [] then some d else none
  | none => none

/- JSON encoder (flow style). -/
mutual
def jsonEnc : Doc → List Char
  | .scl .snull => "null".data
  | .scl (.sbool true) => "true".data
  | .scl (.sbool false) => "false".data
  | .scl (.sint n) => intRender n
  | .scl (.sstr s) => quoteStr s
  | .arr .nil => "[]".data
  | .arr (.cons d tl) => '[' :: (jsonEnc d ++ jsonEncL tl) ++ [']']
  | .obj .nil => "\x7b\x7d".data
  | .obj (.cons k v tl) => '\x7b' :: (quoteStr k ++ ':' :: ' ' :: jsonEnc v ++ jsonEncM tl) ++ ['\x7d']
def jsonEncL : DocList → List Char
  | .nil => []
  | .cons d tl => ',' :: ' ' :: (jsonEnc d ++ jsonEncL tl)
def jsonEncM : DocMap → List Char
  | .nil => []
  | .cons k v tl => ',' :: ' ' :: (quoteStr k ++ ':' :: ' ' :: jsonEnc v ++ jsonEncM tl)
end

/-- Encode a document in the secondary (JSON) content format. -/
def jsonEncode (d : Doc) : String := ⟨jsonEnc d⟩

/-- The Python value handed to `write_config` (`Dict[str, Any]`): either a
dictionary of representable document values, or a dictionary containing a
Python object the serializer cannot represent (`yaml.dump` raises
`RepresenterError` for it, after the target file has been opened). -/
inductive PyData where
  | repr (kvs : DocMap)
  | unrepr

/-- Serialize `write_config` data in the primary format; `none` models the
serializer raising on unrepresentable data. -/
def encodeYamlData : PyData → Option String
  | .repr kvs => some (yamlEncode (Doc.obj kvs))
  | .unrepr => none

/-- Serialize `write_config` data in the secondary format. -/
def encodeJsonData : PyData → Option String
  | .repr kvs => some (jsonEncode (Doc.obj kvs))
  | .unrepr => none

/-! ### Filesystem and process-state model

Files carry their byte content, integer modification time and the current
principal's read/write access; directories carry writability.  `clock` is
the current time (stamped onto files by writes), `posix` whether the
platform is in `['Linux', 'Darwin']`, and `elevOk` whether the privileged
helper (`sudo chown`) would succeed for a path. -/

/-- Metadata and content of one file. -/
structure FileInfo where
  content : String
  mtime : Int
  rOK : Bool
  wOK : Bool
deriving DecidableEq

/-- The modelled filesystem and environment state. -/
structure FS where
  files : List (String × FileInfo)
  dirs : List (String × Bool)
  clock : Int
  posix : Bool
  elevOk : String → Bool

/-- Does a file exist at `p`? -/
def fileExistsB (fs : FS) (p : String) : Bool := (fs.files.lookup p).isSome

/-- Does a directory exist at `d`? -/
def dirExistsB (fs : FS) (d : String) : Bool := (fs.dirs.lookup d).isSome

/-- `os.access(d, W_OK)` for a directory (false when missing). -/
def dirWritableB (fs : FS) (d : String) : Bool := (fs.dirs.lookup d).getD false

/-! ### ConfigManager state -/

/-- Mutable state of one registered configuration: its explicit path
(empty = defaulted), and the static `required`/`backup_enabled` flags. -/
structure CMEntry where
  path : String
  required : Bool
  backupEnabled : Bool
deriving DecidableEq

/-- The manager: application directory and the registry of configurations. -/
structure CM where
  appDir : String
  entries : List (String × CMEntry)
deriving DecidableEq

/-- `self.backup_dir = self.app_dir / "backups"`. -/
def backupDirOf (cm : CM) : String := cm.appDir ++ "/backups"

/-- The fixed registry built in `__init__`: `bookmarks` and `settings` are
required, the rest optional; backups enabled for all. -/
def initEntries : List (String × CMEntry) :=
  [("bookmarks", ⟨"", true, true⟩), ("settings", ⟨"", true, true⟩),
   ("services", ⟨"", false, true⟩), ("widgets", ⟨"", false, true⟩),
   ("docker", ⟨"", false, true⟩), ("kubernetes", ⟨"", false, true⟩),
   ("proxmox", ⟨"", false, true⟩)]

/-- A freshly constructed manager. -/
def initCM (appDir : String) : CM := ⟨appDir, initEntries⟩

/-! ### Operations (translated from `ConfigManager`) -/

/-- `get_config_path`: `""` for an unknown name; otherwise the explicit
path if set, else the default `<appDir>/<name>.yaml`. -/
def get_config_path (cm : CM) (name : String) : String :=
  match cm.entries.lookup name with
  | none => ""
  | some e => if e.path = "" then cm.appDir ++ "/" ++ name ++ ".yaml" else e.path

/-- `validate_config_path`: the parent directory must exist, and a probe
file must be creatable and removable there (modelled as writability). -/
def validate_config_path (fs : FS) (path : String) : Bool :=
  if dirExistsB fs (parentDir path) = false then false
  else dirWritableB fs (parentDir path)

/-- The manifest document `{key: config.path}` serialized by `save_config_paths`. -/
def pathsDocMap : List (String × CMEntry) → DocMap
  | [] => .nil
  | (k, e) :: rest => .cons k (.scl (.sstr e.path)) (pathsDocMap rest)

/-- `save_config_paths`: rewrite `<appDir>/config_paths.json` with the
current name-to-path mapping. -/
def save_config_paths (cm : CM) (fs : FS) : FS :=
  let p := cm.appDir ++ "/config_paths.json"
  { fs with files := setA fs.files p ⟨jsonEncode (Doc.obj (pathsDocMap cm.entries)), fs.clock, true, true⟩ }

/-- `set_config_path`: reject unknown names and paths failing the
writability pre-check; otherwise update the entry and persist the manifest. -/
def set_config_path (cm : CM) (fs : FS) (name path : String) : Bool × CM × FS :=
  match cm.entries.lookup name with
  | none => (false, cm, fs)
  | some e =>
    if validate_config_path fs path = false then (false, cm, fs)
    else
      let cm2 : CM := { cm with entries := setA cm.entries name { e with path := path } }
      (true, cm2, save_config_paths cm2 fs)

/-- `check_privileges`: an existing file needs read and write permission;
a missing file needs a writable parent directory. -/
def check_privileges (fs : FS) (path : String) : Bool × String :=
  match fs.files.lookup path with
  | some f =>
    if f.rOK = false then (false, "No read permission")
    else if f.wOK = false then (false, "No write permission")
    else (true, "OK")
  | none =>
    if dirWritableB fs (parentDir path) = false then
      (false, "No write permission to parent directory")
    else (true, "OK")

/-- `elevate_privileges`: on a POSIX platform, `sudo chown` the path to the
current user (fails for a missing path or when the helper fails), then
`sudo chmod 644` it; success leaves the file readable and writable. -/
def elevate_privileges (fs : FS) (path : String) : Bool × FS :=
  match fs.files.lookup path with
  | none => (false, fs)
  | some f =>
    if fs.posix && fs.elevOk path then
      (true, { fs with files := setA fs.files path { f with rOK := true, wOK := true } })
    else (false, fs)

/-- The backup filename `f"{path_obj.stem}_{int(timestamp)}.yaml"` where
`timestamp` is the source file's modification time. -/
def backupName (path : String) (m : Int) : String := stem path ++ "_" ++ intStr m ++ ".yaml"

/-- Full path of the backup of `path` for source modification time `m`. -/
def backupPathOf (cm : CM) (path : String) (m : Int) : String :=
  backupDirOf cm ++ "/" ++ backupName path m

/-- `create_backup`: no-op for a missing path; otherwise `shutil.copy2`
the file (content, mtime and mode) to the timestamp-named backup path. -/
def create_backup (cm : CM) (fs : FS) (path : String) : Bool × FS :=
  match fs.files.lookup path with
  | none => (false, fs)
  | some f =>
    if f.rOK = false then (false, fs)
    else (true, { fs with files := setA fs.files (backupPathOf cm path f.mtime) f })

/-- Does the path carry a recognized primary-format extension? -/
def extYamlB (p : String) : Bool := endsW p ".yaml" || endsW p ".yml"

/-- Does the path carry the secondary-format extension? -/
def extJsonB (p : String) : Bool := endsW p ".json"

/-- `Path(path).parent.mkdir(parents=True, exist_ok=True)`. -/
def ensureDir (fs : FS) (d : String) : FS :=
  if dirExistsB fs d then fs else { fs with dirs := setA fs.dirs d true }

/-- `open(path, 'w')`: truncate an existing file (or create a fresh one),
stamping the current time. -/
def truncateCreate (fs : FS) (path : String) : FS :=
  match fs.files.lookup path with
  | some f => { fs with files := setA fs.files path { f with content := "", mtime := fs.clock } }
  | none => { fs with files := setA fs.files path ⟨"", fs.clock, true, true⟩ }

/-- Finish writing `s` to the open file. -/
def putContent (fs : FS) (path s : String) : FS :=
  match fs.files.lookup path with
  | some f => { fs with files := setA fs.files path { f with content := s, mtime := fs.clock } }
  | none => { fs with files := setA fs.files path ⟨s, fs.clock, true, true⟩ }

/-- `os.chmod(path, 0o644)`. -/
def chmod644 (fs : FS) (path : String) : FS :=
  match fs.files.lookup path with
  | some f => { fs with files := setA fs.files path { f with rOK := true, wOK := true } }
  | none => fs

/-- `write_config`: resolve, back up an existing target when enabled,
check privileges (elevating once on denial), ensure the parent directory,
open-truncate the target, serialize by extension, and chmod on POSIX.
A serialization error aborts after the target has already been opened. -/
def write_config (cm : CM) (fs : FS) (name : String) (data : PyData) : Bool × FS :=
  match cm.entries.lookup name with
  | none => (false, fs)
  | some e =>
    let path := get_config_path cm name
    let fs1 := if fileExistsB fs path && e.backupEnabled then (create_backup cm fs path).2 else fs
    let chk := check_privileges fs1 path
    let el := if chk.1 then (true, fs1) else elevate_privileges fs1 path
    if el.1 = false then (false, el.2)
    else
      let fs2 := ensureDir el.2 (parentDir path)
      let canOpen :=
        match fs2.files.lookup path with
        | some f => f.wOK
        | none => dirWritableB fs2 (parentDir path)
      if canOpen = false then (false, fs2)
      else
        let enc :=
          if extYamlB path then encodeYamlData data
          else if extJsonB path then encodeJsonData data
          else encodeYamlData data
        let fs3 := truncateCreate fs2 path
        match enc with
        | none => (false, fs3)
        | some s =>
          let fs4 := putContent fs3 path s
          let fs5 := if fs4.posix then chmod644 fs4 path else fs4
          (true, fs5)

/-- Decoding applied by `read_config` to the bytes of an existing readable
file, by extension: the primary format for `.yaml`/`.yml`, the secondary
for `.json`, otherwise primary with fallback to secondary; every decoded
value passes through `or {}`, and any parse failure becomes `{}`. -/
def readResult (path content : String) : Doc :=
  if extYamlB path then readDecodeYaml content
  else if extJsonB path then
    match jsonParse content with
    | some d => orEmpty d
    | none => Doc.obj .nil
  else
    match yamlParse content with
    | some d => orEmpty d
    | none =>
      match jsonParse content with
      | some d => orEmpty d
      | none => Doc.obj .nil

/-- `read_config`: unknown names, access failures (after one elevation
attempt), missing files and parse failures all yield the empty document. -/
def read_config (cm : CM) (fs : FS) (name : String) : Doc × FS :=
  match cm.entries.lookup name with
  | none => (Doc.obj .nil, fs)
  | some _ =>
    let path := get_config_path cm name
    let chk := check_privileges fs path
    let el := if chk.1 then (true, fs) else elevate_privileges fs path
    if el.1 = false then (Doc.obj .nil, el.2)
    else
      match el.2.files.lookup path with
      | none => (Doc.obj .nil, el.2)
      | some f =>
        if f.rOK = false then (Doc.obj .nil, el.2)
        else (readResult path f.content, el.2)

/-- Can `shutil.copy2(src, dst)` succeed?  The source must be readable and
distinct from the destination (`SameFileError`), and the destination must
be writable (or creatable in its parent). -/
def copyOkB (fs : FS) (src dst : String) : Bool :=
  match fs.files.lookup src with
  | none => false
  | some g =>
    g.rOK && src != dst &&
      (match fs.files.lookup dst with
       | some f => f.wOK
       | none => dirWritableB fs (parentDir dst))

/-- `shutil.copy2`: copy content, modification time and mode. -/
def copy2 (fs : FS) (src dst : String) : FS :=
  match fs.files.lookup src with
  | none => fs
  | some g => { fs with files := setA fs.files dst g }

/-- `restore_backup`: fail for a missing backup; otherwise back up the
current target (if it exists) and copy the backup over the target. -/
def restore_backup (cm : CM) (fs : FS) (name backupPath : String) : Bool × FS :=
  let target := get_config_path cm name
  if fileExistsB fs backupPath = false then (false, fs)
  else
    let fs1 := if fileExistsB fs target then (create_backup cm fs target).2 else fs
    if copyOkB fs1 backupPath target then (true, copy2 fs1 backupPath target)
    else (false, fs1)

/-- Does a filename match the glob `f"{config_name}_*.yaml"`? -/
def globMatchB (fname name : String) : Bool :=
  startsW fname (name ++ "_") && endsW fname ".yaml" &&
    decide (name.length + 6 ≤ fname.length)

/-- `list_backups`: glob the backup directory for `<name>_*.yaml` and
return the paths sorted with `sorted(backups, reverse=True)`. -/
def list_backups (cm : CM) (fs : FS) (name : String) : List String :=
  let cands := fs.files.filterMap
    (fun pr =>
      if parentDir pr.1 == backupDirOf cm && globMatchB (fileName pr.1) name then some pr.1
      else none)
  sortDesc cands

/-- Does a required configuration fail validation (inaccessible or missing)? -/
def reqFailB (cm : CM) (fs : FS) (pr : String × CMEntry) : Bool :=
  pr.2.required &&
    (!(check_privileges fs (get_config_path cm pr.1)).1 ||
      !(fileExistsB fs (get_config_path cm pr.1)))

/-- The diagnostic line `validate_all_configs` records for a failing entry. -/
def valMsg (cm : CM) (fs : FS) (pr : String × CMEntry) : String :=
  let path := get_config_path cm pr.1
  let chk := check_privileges fs path
  if chk.1 = false then pr.1 ++ ": " ++ chk.2
  else pr.1 ++ ": File not found at " ++ path

/-- The loop of `validate_all_configs` over the registry. -/
def validateGo (cm : CM) (fs : FS) : List (String × CMEntry) → Bool × List String
  | [] => (true, [])
  | (name, e) :: rest =>
    let r := validateGo cm fs rest
    if e.required = false then r
    else
      let path := get_config_path cm name
      let chk := check_privileges fs path
      if chk.1 = false then (false, (name ++ ": " ++ chk.2) :: r.2)
      else if fileExistsB fs path = false then
        (false, (name ++ ": File not found at " ++ path) :: r.2)
      else r

/-- `validate_all_configs`: overall validity plus one diagnostic per
failing required configuration. -/
def validate_all_configs (cm : CM) (fs : FS) : Bool × List String :=
  validateGo cm fs cm.entries

/-! ### Concrete states used by witnesses and counterexamples -/

/-- A manager rooted at `/app` with the default registry. -/
def exCM : CM := initCM "/app"

/-- An environment in which the privileged helper always fails. -/
def exElev : String → Bool := fun _ => false

/-- A healthy settings file. -/
def exFS1 : FS :=
  { files := [("/app/settings.yaml", ⟨"a: 1\n", 3, true, true⟩)],
    dirs := [("/app", true), ("/app/backups", true)],
    clock := 10, posix := true, elevOk := exElev }

/-- A settings file without write permission (access denial). -/
def exFS2 : FS :=
  { files := [("/app/settings.yaml", ⟨"a: 1\n", 3, true, false⟩)],
    dirs := [("/app", true), ("/app/backups", true)],
    clock := 10, posix := true, elevOk := exElev }

/-- An existing settings file whose content parses in neither format. -/
def exFS3 : FS :=
  { files := [("/app/settings.yaml", ⟨"]", 3, true, true⟩)],
    dirs := [("/app", true), ("/app/backups", true)],
    clock := 10, posix := true, elevOk := exElev }

/-- Two backups whose timestamps have different digit widths. -/
def exFS4 : FS :=
  { files := [("/app/backups/bookmarks_999.yaml", ⟨"x", 999, true, true⟩),
              ("/app/backups/bookmarks_1000.yaml", ⟨"y", 1000, true, true⟩)],
    dirs := [("/app", true), ("/app/backups", true)],
    clock := 10, posix := true, elevOk := exElev }

/-- A representable settings document. -/
def exData : PyData := PyData.repr (DocMap.cons "a" (Doc.scl (Scalar.sint 1)) DocMap.nil)

/-- First write of `settings` (backs up the existing file, then rewrites it). -/
def exW1 : Bool × FS := write_config exCM exFS1 "settings" exData

/-- The same world one tick later, the settings file untouched in between. -/
def exFSMid : FS := { exW1.2 with clock := 20 }

/-- Second write of `settings`, no modification having intervened. -/
def exW2 : Bool × FS := write_config exCM exFSMid "settings" exData

/-- A target whose modification time names exactly the backup being restored. -/
def exFS6 : FS :=
  { files := [("/app/settings.yaml", ⟨"new", 5, true, true⟩),
              ("/app/backups/settings_5.yaml", ⟨"old", 4, true, true⟩)],
    dirs := [("/app", true), ("/app/backups", true)],
    clock := 10, posix := true, elevOk := exElev }

/-- A routine restore state: backup and fresh-backup names differ. -/
def exFS7 : FS :=
  { files := [("/app/settings.yaml", ⟨"x: 2\n", 9, true, true⟩),
              ("/app/backups/settings_7.yaml", ⟨"\"a\": 1\n", 7, true, true⟩)],
    dirs := [("/app", true), ("/app/backups", true)],
    clock := 10, posix := true, elevOk := exElev }

/-- A configuration pointed at a path whose stem extends the name. -/
def exFS8 : FS :=
  { files := [("/data/settings_prod.yaml", ⟨"x: 1\n", 7, true, true⟩)],
    dirs := [("/app", true), ("/app/backups", true), ("/data", true)],
    clock := 10, posix := true, elevOk := exElev }

/-- A configuration pointed at a path with an unrelated stem. -/
def exFS9 : FS :=
  { files := [("/data/custom.yaml", ⟨"x: 1\n", 7, true, true⟩)],
    dirs := [("/app", true), ("/app/backups", true), ("/data", true)],
    clock := 10, posix := true, elevOk := exElev }

/-- The timestamp embedded in a backup filename `<stem>_<ts>.yaml`: the
maximal signed integer between the last underscore and the extension. -/
def tsOfBackup (p : String) : Option Int :=
  let n := (fileName p).data
  let core := n.take (n.length - 5)
  parseIntChars ((core.reverse.takeWhile (fun c => c != '_')).reverse)

/-- The first line (if any) is indented at most `i`. -/
def headLE : List Line → Nat → Prop
  | [], _ => True
  | (j, _) :: _, i => j ≤ i

/-- The first line (if any) is indented strictly less than `i`. -/
def headLT : List Line → Nat → Prop
  | [], _ => True
  | (j, _) :: _, i => j < i

/-- Round trip of one rendered sequence item through `parseOneItem`. -/
def ItemRT (d : Doc) : Prop :=
  ∀ (i : Nat) (rest : List Line) (fuel : Nat),
    3 * ((itemL d i).length + rest.length) + 1 ≤ fuel → headLE rest i →
    parseOneItem fuel (itemL d i ++ rest) i = some (d, rest)

/-- Round trip of one rendered mapping entry through `parseOneEntry`. -/
def EntryRT (d : Doc) : Prop :=
  ∀ (k : String) (i : Nat) (rest : List Line) (fuel : Nat),
    3 * ((keyL k d i).length + rest.length) + 1 ≤ fuel → headLE rest i →
    parseOneEntry fuel (keyL k d i ++ rest) i = some ((k, d), rest)

/-- Round trip of a rendered sequence body through `parseSeqTail`. -/
def SeqRT (xs : DocList) : Prop :=
  ∀ (i : Nat) (rest : List Line) (fuel : Nat),
    3 * ((listL xs i).length + rest.length) + 2 ≤ fuel → headLT rest i →
    parseSeqTail fuel (listL xs i ++ rest) i = some (xs, rest)

/-- Round trip of a rendered mapping body through `parseMapTail`. -/
def MapRT (m : DocMap) : Prop :=
  ∀ (i : Nat) (rest : List Line) (fuel : Nat),
    3 * ((mapL m i).length + rest.length) + 2 ≤ fuel → headLT rest i →
    parseMapTail fuel (mapL m i ++ rest) i = some (m, rest)

/-! ### Theorems -/

/-- `setA` binds the updated key. -/
theorem lookup_setA_self {α : Type} (l : List (String × α)) (k : String) (v : α) :
    List.lookup k (setA l k v) = some v := by
  induction l with
  | nil => simp [setA, List.lookup]
  | cons p rest ih =>
    obtain ⟨k2, v2⟩ := p
    by_cases h : k2 = k
    · subst h; simp [setA, List.lookup]
    · simp [setA, h, List.lookup, beq_eq_false_iff_ne.mpr (Ne.symm h), ih]

/-- `setA` leaves other keys alone. -/
theorem lookup_setA_ne {α : Type} (l : List (String × α)) (k k2 : String) (v : α)
    (h : k2 ≠ k) : List.lookup k2 (setA l k v) = List.lookup k2 l := by
  induction l with
  | nil => simp [setA, List.lookup, beq_eq_false_iff_ne.mpr h]
  | cons p rest ih =>
    obtain ⟨k3, v3⟩ := p
    by_cases h3 : k3 = k
    · subst h3
      simp [setA, List.lookup, beq_eq_false_iff_ne.mpr h]
    · simp only [setA, if_neg h3]
      by_cases h4 : k2 = k3
      · subst h4; simp [List.lookup]
      · simp [List.lookup, beq_eq_false_iff_ne.mpr h4, ih]

/-- Repeating a `setA` at the same key collapses. -/
theorem setA_setA {α : Type} (l : List (String × α)) (k : String) (v w : α) :
    setA (setA l k v) k w = setA l k w := by
  induction l with
  | nil => simp [setA]
  | cons p rest ih =>
    obtain ⟨k2, v2⟩ := p
    by_cases h : k2 = k
    · subst h; simp [setA]
    · simp [setA, h, ih]

/-- Appending `".yaml"` never yields the empty string. -/
theorem append_yaml_ne_empty (a : String) : a ++ ".yaml" ≠ "" := by
  intro h
  have h2 := congrArg String.length h
  rw [String.length_append] at h2
  have h3 : (".yaml" : String).length = 5 := rfl
  have h4 : ("" : String).length = 0 := rfl
  omega

/-- C8: for every registered configuration name, `get_config_path` returns a
non-empty string — the explicitly set path if one has been set, otherwise the
default `<appDir>/<name>.yaml` — independent of any filesystem or manifest
state (in particular before any manifest file exists). -/
theorem get_config_path_registered_nonempty (cm : CM) (name : String) (e : CMEntry)
    (h : cm.entries.lookup name = some e) :
    get_config_path cm name ≠ "" ∧
    (e.path ≠ "" → get_config_path cm name = e.path) ∧
    (e.path = "" → get_config_path cm name = cm.appDir ++ "/" ++ name ++ ".yaml") := by
  by_cases hp : e.path = ""
  · have hg : get_config_path cm name = cm.appDir ++ "/" ++ name ++ ".yaml" := by
      simp [get_config_path, h, hp]
    refine ⟨?_, fun hne => absurd hp hne, fun _ => hg⟩
    rw [hg]
    exact append_yaml_ne_empty (cm.appDir ++ "/" ++ name)
  · have hg : get_config_path cm name = e.path := by
      simp [get_config_path, h, hp]
    exact ⟨by rw [hg]; exact hp, fun _ => hg, fun hc => absurd hc hp⟩

/-- Witness for C8 at a fresh manager. -/
theorem C8_witness :
    get_config_path (initCM "/app") "settings" ≠ "" ∧
    get_config_path (initCM "/app") "settings" = "/app/settings.yaml" := by
  have h := get_config_path_registered_nonempty (initCM "/app") "settings" ⟨"", true, true⟩
    (by decide)
  exact ⟨h.1, by rw [h.2.2 rfl]; decide⟩

/-- C6: `set_config_path` with a path whose parent directory is missing or
unwritable, or with an unregistered name, returns false and leaves the
manager (hence `get_config_path`) and the filesystem unchanged. -/
theorem set_config_path_invalid_unchanged (cm : CM) (fs : FS) (name p : String)
    (h : (dirExistsB fs (parentDir p) = false ∨ dirWritableB fs (parentDir p) = false) ∨
      cm.entries.lookup name = none) :
    (set_config_path cm fs name p).1 = false ∧
    (set_config_path cm fs name p).2.1 = cm ∧
    (set_config_path cm fs name p).2.2 = fs ∧
    get_config_path (set_config_path cm fs name p).2.1 name = get_config_path cm name := by
  have hres : set_config_path cm fs name p = (false, cm, fs) := by
    rcases h with hpath | hname
    · cases hl : cm.entries.lookup name with
      | none => simp [set_config_path, hl]
      | some e =>
        have hv : validate_config_path fs p = false := by
          rcases hpath with h1 | h1
          · simp [validate_config_path, h1]
          · simp [validate_config_path, h1]
        simp [set_config_path, hl, hv]
    · simp [set_config_path, hname]
  rw [hres]
  exact ⟨rfl, rfl, rfl, rfl⟩

/-- Witness for C6: a parent directory that does not exist. -/
theorem C6_witness :
    (set_config_path exCM exFS1 "settings" "/nope/x.yaml").1 = false ∧
    (set_config_path exCM exFS1 "settings" "/nope/x.yaml").2.1 = exCM := by
  have h := set_config_path_invalid_unchanged exCM exFS1 "settings" "/nope/x.yaml"
    (Or.inl (Or.inl (by decide)))
  exact ⟨h.1, h.2.1⟩

/-- The loop of `validate_all_configs` reports validity exactly when no
required entry fails. -/
theorem validateGo_fst (cm : CM) (fs : FS) (l : List (String × CMEntry)) :
    (validateGo cm fs l).1 = !(l.any (reqFailB cm fs)) := by
  induction l with
  | nil => simp [validateGo]
  | cons pr rest ih =>
    obtain ⟨name, e⟩ := pr
    by_cases he : e.required = false
    · simp [validateGo, he, List.any_cons, reqFailB, ih]
    · have he2 : e.required = true := by
        cases hcase : e.required
        · exact absurd hcase he
        · rfl
      cases hc : (check_privileges fs (get_config_path cm name)).1 with
      | false =>
        simp [validateGo, he2, hc, List.any_cons, reqFailB]
      | true =>
        cases hx : fileExistsB fs (get_config_path cm name) with
        | false => simp [validateGo, he2, hc, hx, List.any_cons, reqFailB]
        | true => simp [validateGo, he2, hc, hx, List.any_cons, reqFailB, ih]

/-- The loop of `validate_all_configs` emits exactly one diagnostic, in
order, per failing required entry. -/
theorem validateGo_snd (cm : CM) (fs : FS) (l : List (String × CMEntry)) :
    (validateGo cm fs l).2 = (l.filter (reqFailB cm fs)).map (valMsg cm fs) := by
  induction l with
  | nil => simp [validateGo]
  | cons pr rest ih =>
    obtain ⟨name, e⟩ := pr
    by_cases he : e.required = false
    · simp [validateGo, he, reqFailB, List.filter_cons, ih]
    · have he2 : e.required = true := by
        cases hcase : e.required
        · exact absurd hcase he
        · rfl
      cases hc : (check_privileges fs (get_config_path cm name)).1 with
      | false =>
        simp [validateGo, he2, hc, reqFailB, valMsg, List.filter_cons, ih]
      | true =>
        cases hx : fileExistsB fs (get_config_path cm name) with
        | false => simp [validateGo, he2, hc, hx, reqFailB, valMsg, List.filter_cons, ih]
        | true => simp [validateGo, he2, hc, hx, reqFailB, List.filter_cons, ih]

/-- Entries that are not `required` never affect the loop's outcome. -/
theorem validateGo_required_only (cm : CM) (fs : FS) (l : List (String × CMEntry)) :
    validateGo cm fs l = validateGo cm fs (l.filter (fun pr => pr.2.required)) := by
  induction l with
  | nil => simp [validateGo]
  | cons pr rest ih =>
    obtain ⟨name, e⟩ := pr
    cases he : e.required with
    | false => simp [validateGo, he, List.filter_cons, ih]
    | true =>
      simp only [List.filter_cons, he]
      cases hc : (check_privileges fs (get_config_path cm name)).1 with
      | false => simp [validateGo, he, hc, ih]
      | true =>
        cases hx : fileExistsB fs (get_config_path cm name) with
        | false => simp [validateGo, he, hc, hx, ih]
        | true => simp [validateGo, he, hc, hx, ih]

/-- C5: `validate_all_configs` returns `(false, errors)` exactly when some
required configuration is inaccessible or missing; the error list is one
diagnostic per failing required entry (`valMsg` names the entry), and
non-required entries never affect the result. -/
theorem validate_all_configs_spec (cm : CM) (fs : FS) :
    ((validate_all_configs cm fs).1 = false ↔ ∃ pr ∈ cm.entries, reqFailB cm fs pr = true) ∧
    (validate_all_configs cm fs).2 = (cm.entries.filter (reqFailB cm fs)).map (valMsg cm fs) ∧
    validate_all_configs cm fs
      = validateGo cm fs (cm.entries.filter (fun pr => pr.2.required)) := by
  refine ⟨?_, ?_, ?_⟩
  · rw [validate_all_configs, validateGo_fst]
    simp [List.any_eq_true]
  · rw [validate_all_configs, validateGo_snd]
  · rw [validate_all_configs, validateGo_required_only]

/-- C4 (amended): `create_backup` names the backup
`<stem>_<mtime>.yaml` from the source file's modification time alone (no
wall clock is consulted), so backing up the same unmodified file twice
produces the same name and leaves the backup store unchanged. -/
theorem create_backup_name_idempotent (cm : CM) (fs : FS) (path : String) (f : FileInfo)
    (hf : fs.files.lookup path = some f) (hr : f.rOK = true) :
    create_backup cm fs path
      = (true, { fs with files := setA fs.files (backupPathOf cm path f.mtime) f }) ∧
    create_backup cm (create_backup cm fs path).2 path = create_backup cm fs path := by
  have h1 : create_backup cm fs path
      = (true, { fs with files := setA fs.files (backupPathOf cm path f.mtime) f }) := by
    unfold create_backup
    rw [hf]
    simp [hr]
  refine ⟨h1, ?_⟩
  have hl : List.lookup path (setA fs.files (backupPathOf cm path f.mtime) f) = some f := by
    by_cases hbp : path = backupPathOf cm path f.mtime
    · nth_rewrite 1 [hbp]
      rw [lookup_setA_self]
    · rw [lookup_setA_ne _ _ _ _ hbp, hf]
  rw [h1]
  unfold create_backup
  simp [hl, hr, setA_setA]

/-- Witness for C4. -/
theorem C4_witness :
    create_backup exCM exFS1 "/app/settings.yaml"
      = (true, { exFS1 with
          files := setA exFS1.files "/app/backups/settings_3.yaml" ⟨"a: 1\n", 3, true, true⟩ }) ∧
    create_backup exCM (create_backup exCM exFS1 "/app/settings.yaml").2 "/app/settings.yaml"
      = create_backup exCM exFS1 "/app/settings.yaml" := by
  have h := create_backup_name_idempotent exCM exFS1 "/app/settings.yaml"
    ⟨"a: 1\n", 3, true, true⟩ (by decide) (by decide)
  have hbp : backupPathOf exCM "/app/settings.yaml" ((3 : Int)) = "/app/backups/settings_3.yaml" := by
    decide
  constructor
  · rw [h.1, hbp]
  · exact h.2

/-- C4 as stated is false: writing a configuration twice without modifying
the file in between does create a second backup entry, because the first
write advances the file's modification time, which names the second backup.
Here the first write leaves one backup (`settings_3`, from the pre-write
mtime) and the second write adds `settings_10` (from the first write's
mtime) even though nothing touched the file between the writes. -/
theorem C4_counterexample :
    exW1.1 = true ∧ exW2.1 = true ∧
    exW1.2.files.lookup "/app/settings.yaml" = exFSMid.files.lookup "/app/settings.yaml" ∧
    list_backups exCM exW1.2 "settings" = ["/app/backups/settings_3.yaml"] ∧
    list_backups exCM exW2.2 "settings"
      = ["/app/backups/settings_3.yaml", "/app/backups/settings_10.yaml"] := by
  exact ⟨by decide, by decide, by decide, by decide, by decide⟩

/-- If content parses in neither format, the extension dispatch of
`read_config` produces the empty document. -/
theorem readResult_unparseable (path content : String)
    (hy : yamlParse content = none) (hj : jsonParse content = none) :
    readResult path content = Doc.obj DocMap.nil := by
  unfold readResult
  split_ifs <;> simp [readDecodeYaml, hy, hj]

/-- C2 (amended): for a registered configuration whose resolved file
exists, is accessible, and whose content parses in neither supported
format, `read_config` logs and returns the empty document — the same
fallback as for a missing file; no `ParseError` reaches the caller. -/
theorem read_config_unparseable_empty (cm : CM) (fs : FS) (name : String) (e : CMEntry)
    (f : FileInfo) (he : cm.entries.lookup name = some e)
    (hf : fs.files.lookup (get_config_path cm name) = some f)
    (hrok : f.rOK = true) (hwok : f.wOK = true)
    (hy : yamlParse f.content = none) (hj : jsonParse f.content = none) :
    (read_config cm fs name).1 = Doc.obj DocMap.nil := by
  have hchk : check_privileges fs (get_config_path cm name) = (true, "OK") := by
    unfold check_privileges
    rw [hf]
    simp [hrok, hwok]
  unfold read_config
  rw [he]
  simp [hchk, hf, hrok, readResult_unparseable _ _ hy hj]

/-- Witness for C2 (amended) at a file containing `"]"`. -/
theorem C2_witness :
    (read_config exCM exFS3 "settings").1 = Doc.obj DocMap.nil :=
  read_config_unparseable_empty exCM exFS3 "settings" ⟨"", true, true⟩ ⟨"]", 3, true, true⟩
    (by decide) (by decide) (by decide) (by decide) (by decide) (by decide)

/-- C2 is false as stated: an existing file whose content is unparseable
in both supported formats does not surface a `ParseError` to the caller —
`read_config` swallows the failure and returns the empty document, exactly
as it does for a missing file. -/
theorem C2_counterexample :
    fileExistsB exFS3 "/app/settings.yaml" = true ∧
    get_config_path exCM "settings" = "/app/settings.yaml" ∧
    yamlParse "]" = none ∧ jsonParse "]" = none ∧
    (read_config exCM exFS3 "settings").1 = Doc.obj DocMap.nil := by
  exact ⟨by decide, by decide, by decide, by decide, by decide⟩

/-- The pre-write backup step never touches the target file (when the
backup path differs from the target), nor any other component of state. -/
theorem backup_step_fields (cm : CM) (fs : FS) (path : String)
    (hsep : ∀ f, fs.files.lookup path = some f → backupPathOf cm path f.mtime ≠ path) :
    (create_backup cm fs path).2.files.lookup path = fs.files.lookup path ∧
    (create_backup cm fs path).2.dirs = fs.dirs ∧
    (create_backup cm fs path).2.clock = fs.clock ∧
    (create_backup cm fs path).2.posix = fs.posix ∧
    (create_backup cm fs path).2.elevOk = fs.elevOk := by
  cases hf : List.lookup path fs.files with
  | none => simp [create_backup, hf]
  | some f =>
    cases hr : f.rOK with
    | false => simp [create_backup, hf, hr]
    | true =>
      have hne := hsep f hf
      simp [create_backup, hf, hr,
        lookup_setA_ne fs.files (backupPathOf cm path f.mtime) path f (Ne.symm hne)]

/-- `write_config` on an unknown name fails without any state change. -/
theorem write_config_unknown (cm : CM) (fs : FS) (name : String) (data : PyData)
    (ha : cm.entries.lookup name = none) :
    write_config cm fs name data = (false, fs) := by
  simp [write_config, ha]

/-- `write_config` under access denial with failed elevation fails and
leaves the target file untouched. -/
theorem write_config_denied_unchanged (cm : CM) (fs : FS) (name : String) (data : PyData)
    (e : CMEntry) (he : cm.entries.lookup name = some e)
    (hsep : ∀ f, fs.files.lookup (get_config_path cm name) = some f →
      backupPathOf cm (get_config_path cm name) f.mtime ≠ get_config_path cm name)
    (hchk : (check_privileges fs (get_config_path cm name)).1 = false)
    (helv : fs.elevOk (get_config_path cm name) = false) :
    (write_config cm fs name data).1 = false ∧
    (write_config cm fs name data).2.files.lookup (get_config_path cm name)
      = fs.files.lookup (get_config_path cm name) := by
  set path := get_config_path cm name with hpath
  set fs1 := if fileExistsB fs path && e.backupEnabled then (create_backup cm fs path).2 else fs
    with hfs1
  have hfields : fs1.files.lookup path = fs.files.lookup path ∧
      fs1.dirs = fs.dirs ∧ fs1.posix = fs.posix ∧ fs1.elevOk = fs.elevOk := by
    rw [hfs1]
    by_cases hcond : (fileExistsB fs path && e.backupEnabled) = true
    · rw [if_pos hcond]
      have h := backup_step_fields cm fs path hsep
      exact ⟨h.1, h.2.1, h.2.2.2.1, h.2.2.2.2⟩
    · rw [if_neg hcond]
      exact ⟨rfl, rfl, rfl, rfl⟩
  have hchk1 : (check_privileges fs1 path).1 = false := by
    have : check_privileges fs1 path = check_privileges fs path := by
      unfold check_privileges dirWritableB
      rw [hfields.1, hfields.2.1]
    rw [this]
    exact hchk
  have helvfix : elevate_privileges fs1 path = (false, fs1) := by
    unfold elevate_privileges
    cases hl : List.lookup path fs1.files with
    | none => rfl
    | some f =>
      rw [hfields.2.2.2, helv]
      simp
  have hres : write_config cm fs name data = (false, fs1) := by
    unfold write_config
    rw [he]
    simp only [← hpath, ← hfs1, hchk1, Bool.false_eq_true, if_false, helvfix]
    simp
  rw [hres]
  exact ⟨rfl, hfields.1⟩

/-- A failed serialization aborts `write_config` after the target has been
opened for writing: the call returns false with the target truncated. -/
theorem write_config_encode_truncates (cm : CM) (fs : FS) (name : String)
    (e : CMEntry) (f : FileInfo) (he : cm.entries.lookup name = some e)
    (hf : fs.files.lookup (get_config_path cm name) = some f)
    (hrok : f.rOK = true) (hwok : f.wOK = true)
    (hsep : backupPathOf cm (get_config_path cm name) f.mtime ≠ get_config_path cm name) :
    (write_config cm fs name PyData.unrepr).1 = false ∧
    (write_config cm fs name PyData.unrepr).2.files.lookup (get_config_path cm name)
      = some ⟨"", fs.clock, f.rOK, f.wOK⟩ := by
  set path := get_config_path cm name with hpath
  set fs1 := if fileExistsB fs path && e.backupEnabled then (create_backup cm fs path).2 else fs
    with hfs1
  have hsepAll : ∀ g, fs.files.lookup path = some g → backupPathOf cm path g.mtime ≠ path := by
    intro g hg
    rw [hf] at hg
    cases hg
    exact hsep
  have hfields : fs1.files.lookup path = fs.files.lookup path ∧
      fs1.dirs = fs.dirs ∧ fs1.clock = fs.clock ∧ fs1.posix = fs.posix := by
    rw [hfs1]
    by_cases hcond : (fileExistsB fs path && e.backupEnabled) = true
    · rw [if_pos hcond]
      have h := backup_step_fields cm fs path hsepAll
      exact ⟨h.1, h.2.1, h.2.2.1, h.2.2.2.1⟩
    · rw [if_neg hcond]
      exact ⟨rfl, rfl, rfl, rfl⟩
  have hf1 : fs1.files.lookup path = some f := by rw [hfields.1, hf]
  have hchk1 : check_privileges fs1 path = (true, "OK") := by
    unfold check_privileges
    rw [hf1]
    simp [hrok, hwok]
  have henc : (if extYamlB path then encodeYamlData PyData.unrepr
      else if extJsonB path then encodeJsonData PyData.unrepr
      else encodeYamlData PyData.unrepr) = none := by
    split_ifs <;> rfl
  have hopen : List.lookup path (ensureDir fs1 (parentDir path)).files = some f := by
    unfold ensureDir
    split_ifs <;> exact hf1
  have hres : write_config cm fs name PyData.unrepr
      = (false, truncateCreate (ensureDir fs1 (parentDir path)) path) := by
    unfold write_config
    rw [he]
    simp only [← hpath, ← hfs1]
    rw [hchk1]
    simp [hopen, hwok, henc]
  rw [hres]
  refine ⟨rfl, ?_⟩
  have hopen2 : List.lookup path (ensureDir fs1 (parentDir path)).files = some f := by
    unfold ensureDir
    split_ifs <;> exact hf1
  have hclk : (ensureDir fs1 (parentDir path)).clock = fs.clock := by
    unfold ensureDir
    split_ifs <;> exact hfields.2.2.1
  unfold truncateCreate
  rw [hopen2]
  simp only [lookup_setA_self, hclk]

/-- C1 (amended): `write_config` fails without touching the target when
the name is unknown, or when access is denied and elevation fails; but a
serialization failure occurs only after the target has been opened with
truncation, so it returns false leaving an empty (truncated) file at the
resolved path rather than the file's previous bytes. -/
theorem write_config_failure_modes :
    (∀ (cm : CM) (fs : FS) (name : String) (data : PyData),
      cm.entries.lookup name = none → write_config cm fs name data = (false, fs)) ∧
    (∀ (cm : CM) (fs : FS) (name : String) (data : PyData) (e : CMEntry),
      cm.entries.lookup name = some e →
      (∀ f, fs.files.lookup (get_config_path cm name) = some f →
        backupPathOf cm (get_config_path cm name) f.mtime ≠ get_config_path cm name) →
      (check_privileges fs (get_config_path cm name)).1 = false →
      fs.elevOk (get_config_path cm name) = false →
      (write_config cm fs name data).1 = false ∧
      (write_config cm fs name data).2.files.lookup (get_config_path cm name)
        = fs.files.lookup (get_config_path cm name)) ∧
    (∀ (cm : CM) (fs : FS) (name : String) (e : CMEntry) (f : FileInfo),
      cm.entries.lookup name = some e →
      fs.files.lookup (get_config_path cm name) = some f →
      f.rOK = true → f.wOK = true →
      backupPathOf cm (get_config_path cm name) f.mtime ≠ get_config_path cm name →
      (write_config cm fs name PyData.unrepr).1 = false ∧
      (write_config cm fs name PyData.unrepr).2.files.lookup (get_config_path cm name)
        = some ⟨"", fs.clock, f.rOK, f.wOK⟩) :=
  ⟨fun cm fs name data ha => write_config_unknown cm fs name data ha,
   fun cm fs name data e he hsep hchk helv =>
     write_config_denied_unchanged cm fs name data e he hsep hchk helv,
   fun cm fs name e f he hf hrok hwok hsep =>
     write_config_encode_truncates cm fs name e f he hf hrok hwok hsep⟩

/-- Witness for C1 (amended): denial with failed elevation at a concrete
state leaves the target unchanged. -/
theorem C1_witness :
    (write_config exCM exFS2 "settings" exData).1 = false ∧
    (write_config exCM exFS2 "settings" exData).2.files.lookup (get_config_path exCM "settings")
      = exFS2.files.lookup (get_config_path exCM "settings") := by
  have hg : get_config_path exCM "settings" = "/app/settings.yaml" := by decide
  exact write_config_failure_modes.2.1 exCM exFS2 "settings" exData ⟨"", true, true⟩
    (by decide)
    (fun f hf => by
      rw [hg] at hf ⊢
      have h2 : List.lookup "/app/settings.yaml" exFS2.files
          = some (⟨"a: 1\n", 3, true, false⟩ : FileInfo) := by decide
      rw [h2] at hf
      injection hf with h3
      subst h3
      decide)
    (by decide) (by decide)

/-- C1 is false as stated: a serialization failure (step 5) leaves a
half-written file.  Concretely, writing an unrepresentable value over an
existing, fully accessible `settings.yaml` returns false but truncates the
file to zero bytes, because the file is opened with `'w'` before encoding. -/
theorem C1_counterexample :
    (write_config exCM exFS1 "settings" PyData.unrepr).1 = false ∧
    exFS1.files.lookup "/app/settings.yaml" = some ⟨"a: 1\n", 3, true, true⟩ ∧
    (write_config exCM exFS1 "settings" PyData.unrepr).2.files.lookup "/app/settings.yaml"
      = some ⟨"", 10, true, true⟩ := by
  exact ⟨by decide, by decide, by decide⟩

/-- Code-point lexicographic comparison is transitive. -/
theorem strLtB_trans (a b c : List Char) (h1 : strLtB a b = true) (h2 : strLtB b c = true) :
    strLtB a c = true := by
  induction a generalizing b c with
  | nil =>
    cases b with
    | nil => simp [strLtB] at h1
    | cons y bs =>
      cases c with
      | nil => simp [strLtB] at h2
      | cons z cs => simp [strLtB]
  | cons x as ih =>
    cases b with
    | nil => simp [strLtB] at h1
    | cons y bs =>
      cases c with
      | nil => simp [strLtB] at h2
      | cons z cs =>
        simp only [strLtB] at h1 h2 ⊢
        by_cases hxy : x.toNat < y.toNat
        · by_cases hyz : y.toNat < z.toNat
          · have hxz : x.toNat < z.toNat := by omega
            simp [hxz]
          · rw [if_neg hyz] at h2
            by_cases hzy : z.toNat < y.toNat
            · rw [if_pos hzy] at h2; exact absurd h2 (by simp)
            · rw [if_neg hzy] at h2
              have hxz : x.toNat < z.toNat := by omega
              simp [hxz]
        · rw [if_neg hxy] at h1
          by_cases hyx : y.toNat < x.toNat
          · rw [if_pos hyx] at h1; exact absurd h1 (by simp)
          · rw [if_neg hyx] at h1
            by_cases hyz : y.toNat < z.toNat
            · have hxz : x.toNat < z.toNat := by omega
              simp [hxz]
            · rw [if_neg hyz] at h2
              by_cases hzy : z.toNat < y.toNat
              · rw [if_pos hzy] at h2; exact absurd h2 (by simp)
              · rw [if_neg hzy] at h2
                have hxz : ¬ x.toNat < z.toNat := by omega
                have hzx : ¬ z.toNat < x.toNat := by omega
                rw [if_neg hxz, if_neg hzx]
                exact ih bs cs h1 h2

/-- Code-point lexicographic comparison is asymmetric. -/
theorem strLtB_asymm (a b : List Char) (h : strLtB a b = true) : strLtB b a = false := by
  induction a generalizing b with
  | nil =>
    cases b with
    | nil => simp [strLtB] at h
    | cons y bs => simp [strLtB]
  | cons x as ih =>
    cases b with
    | nil => simp [strLtB] at h
    | cons y bs =>
      simp only [strLtB] at h ⊢
      by_cases hxy : x.toNat < y.toNat
      · have h1 : ¬ y.toNat < x.toNat := by omega
        rw [if_neg h1, if_pos hxy]
      · rw [if_neg hxy] at h
        by_cases hyx : y.toNat < x.toNat
        · rw [if_pos hyx] at h; exact absurd h (by simp)
        · rw [if_neg hyx] at h
          rw [if_neg hyx, if_neg hxy]
          exact ih bs h

/-- Descending insertion is a permutation of consing. -/
theorem insertDesc_perm (x : String) (l : List String) : (insertDesc x l).Perm (x :: l) := by
  induction l with
  | nil => simp [insertDesc]
  | cons y ys ih =>
    unfold insertDesc
    by_cases h : strLtB y.data x.data = true
    · rw [if_pos h]
    · rw [if_neg h]
      exact (List.Perm.cons y ih).trans (List.Perm.swap x y ys)

/-- `sortDesc` permutes its input. -/
theorem sortDesc_perm (l : List String) : (sortDesc l).Perm l := by
  induction l with
  | nil => simp [sortDesc]
  | cons x xs ih =>
    unfold sortDesc
    exact (insertDesc_perm x (sortDesc xs)).trans (List.Perm.cons x ih)

/-- Descending insertion preserves descending sortedness. -/
theorem insertDesc_pairwise (x : String) (l : List String)
    (hl : l.Pairwise (fun a b => strLtB a.data b.data = false)) :
    (insertDesc x l).Pairwise (fun a b => strLtB a.data b.data = false) := by
  induction l with
  | nil => simp [insertDesc]
  | cons y ys ih =>
    rw [List.pairwise_cons] at hl
    obtain ⟨hy, hys⟩ := hl
    unfold insertDesc
    by_cases h : strLtB y.data x.data = true
    · rw [if_pos h]
      rw [List.pairwise_cons]
      refine ⟨?_, List.pairwise_cons.mpr ⟨hy, hys⟩⟩
      intro z hz
      rcases List.mem_cons.mp hz with hz1 | hz2
      · subst hz1
        exact strLtB_asymm _ _ h
      · cases hcase : strLtB x.data z.data
        · rfl
        · exfalso
          have hcontra := strLtB_trans _ _ _ h hcase
          rw [hy z hz2] at hcontra
          exact absurd hcontra (by simp)
    · rw [if_neg h]
      rw [List.pairwise_cons]
      refine ⟨?_, ih hys⟩
      intro z hz
      have hz2 := (insertDesc_perm x ys).mem_iff.mp hz
      rcases List.mem_cons.mp hz2 with hz3 | hz4
      · subst hz3
        cases hcase : strLtB y.data z.data
        · rfl
        · exact absurd hcase h
      · exact hy z hz4

/-- `sortDesc` produces a descending chain. -/
theorem sortDesc_pairwise (l : List String) :
    (sortDesc l).Pairwise (fun a b => strLtB a.data b.data = false) := by
  induction l with
  | nil => simp [sortDesc]
  | cons x xs ih => exact insertDesc_pairwise x (sortDesc xs) ih

/-- C3 (amended): `list_backups` returns exactly the glob matches from the
backup directory, in descending code-point (lexicographic) order of the
path strings — Python's `sorted(backups, reverse=True)` — not in parsed
numeric timestamp order. -/
theorem list_backups_sorted_lex (cm : CM) (fs : FS) (name : String) :
    (list_backups cm fs name).Pairwise (fun a b => strLtB a.data b.data = false) ∧
    (list_backups cm fs name).Perm
      (fs.files.filterMap (fun pr =>
        if parentDir pr.1 == backupDirOf cm && globMatchB (fileName pr.1) name then some pr.1
        else none)) := by
  unfold list_backups
  exact ⟨sortDesc_pairwise _, sortDesc_perm _⟩

/-- C3 is false as stated: with embedded timestamps of different digit
widths the returned order is not descending by parsed timestamp — the
lexicographic sort places `bookmarks_999` (timestamp 999) before
`bookmarks_1000` (timestamp 1000). -/
theorem C3_counterexample :
    list_backups exCM exFS4 "bookmarks"
      = ["/app/backups/bookmarks_999.yaml", "/app/backups/bookmarks_1000.yaml"] ∧
    tsOfBackup "/app/backups/bookmarks_999.yaml" = some 999 ∧
    tsOfBackup "/app/backups/bookmarks_1000.yaml" = some 1000 ∧
    (999 : Int) < 1000 := by
  exact ⟨by decide, by decide, by decide, by decide⟩

/-- `String` append acts as list append on the underlying characters. -/
theorem strData_append (a b : String) : (a ++ b).data = a.data ++ b.data := by
  cases a
  cases b
  rfl

/-- A front of `l` exhibits `l` as itself plus a tail. -/
theorem frontB_exists (a l : List Char) (h : frontB a l = true) : ∃ t, l = a ++ t := by
  induction a generalizing l with
  | nil => exact ⟨l, rfl⟩
  | cons c cs ih =>
    cases l with
    | nil => simp [frontB] at h
    | cons d ds =>
      simp only [frontB, Bool.and_eq_true, beq_iff_eq] at h
      obtain ⟨hc, hrest⟩ := h
      obtain ⟨t, ht⟩ := ih ds hrest
      exact ⟨t, by rw [hc, ht]; rfl⟩

/-- Conversely, every list is fronted by its initial segment. -/
theorem frontB_refl_append (a t : List Char) : frontB a (a ++ t) = true := by
  induction a with
  | nil => simp [frontB]
  | cons c cs ih => simp [frontB, ih]

/-- A front of `v ++ w` either fronts `v` or spills over into it. -/
theorem frontB_append_cases (a v w : List Char) (h : frontB a (v ++ w) = true) :
    frontB a v = true ∨ ∃ t, a = v ++ t ∧ frontB t w = true := by
  induction v generalizing a with
  | nil =>
    right
    exact ⟨a, rfl, by simpa using h⟩
  | cons x vs ih =>
    cases a with
    | nil => left; simp [frontB]
    | cons c cs =>
      simp only [List.cons_append, frontB, Bool.and_eq_true, beq_iff_eq] at h
      obtain ⟨hc, hrest⟩ := h
      rcases ih cs hrest with h1 | ⟨t, ht, htw⟩
      · left; simp [frontB, hc, h1]
      · right
        exact ⟨t, by rw [hc, ht]; rfl, htw⟩

/-- Members of a front are members of the whole. -/
theorem mem_of_frontB (a l : List Char) (h : frontB a l = true) (c : Char) (hc : c ∈ a) :
    c ∈ l := by
  obtain ⟨t, ht⟩ := frontB_exists a l h
  rw [ht]
  exact List.mem_append_left t hc

/-- The fronts of a singleton. -/
theorem frontB_singleton (t : List Char) (c : Char) (h : frontB t [c] = true) :
    t = [] ∨ t = [c] := by
  cases t with
  | nil => exact Or.inl rfl
  | cons d ds =>
    cases ds with
    | nil =>
      simp only [frontB, Bool.and_eq_true, beq_iff_eq] at h
      exact Or.inr (by rw [h.1])
    | cons e es =>
      simp only [frontB, Bool.and_eq_true, beq_iff_eq] at h
      obtain ⟨-, h2⟩ := h
      cases es <;> simp [frontB] at h2

/-- Every character the digit renderer emits is a decimal digit. -/
theorem digitChar_mem (d : Nat) : digitChar d ∈ decChars := by
  unfold digitChar
  split_ifs <;> decide

/-- All characters of a rendered natural are decimal digits. -/
theorem natDigitsF_mem (fuel : Nat) : ∀ (n : Nat) (c : Char), c ∈ natDigitsF fuel n → c ∈ decChars := by
  induction fuel with
  | zero => intro n c hc; simp [natDigitsF] at hc
  | succ fuel ih =>
    intro n c hc
    simp only [natDigitsF] at hc
    by_cases h : n < 10
    · rw [if_pos h] at hc
      simp at hc
      rw [hc]
      exact digitChar_mem n
    · rw [if_neg h] at hc
      rcases List.mem_append.mp hc with h1 | h2
      · exact ih (n / 10) c h1
      · simp at h2
        rw [h2]
        exact digitChar_mem (n % 10)

/-- All characters of a rendered integer are digits or a minus sign. -/
theorem intRender_mem (m : Int) (c : Char) (hc : c ∈ intRender m) : c ∈ '-' :: decChars := by
  unfold intRender natRender at hc
  by_cases h : m < 0
  · rw [if_pos h] at hc
    rcases List.mem_cons.mp hc with h1 | h2
    · rw [h1]; exact List.mem_cons_self _ _
    · exact List.mem_cons_of_mem _ (natDigitsF_mem _ _ _ h2)
  · rw [if_neg h] at hc
    exact List.mem_cons_of_mem _ (natDigitsF_mem _ _ _ hc)

/-- The characters of a backup filename. -/
theorem backupName_data (path : String) (m : Int) :
    (backupName path m).data = (stem path).data ++ '_' :: (intRender m ++ ".yaml".data) := by
  unfold backupName intStr
  simp [strData_append, List.append_assoc]

/-- Equal character data means equal strings. -/
theorem strOfData_inj (a b : String) (h : a.data = b.data) : a = b := by
  cases a
  cases b
  congr 1

/-- Characters of a mk-string. -/
theorem strData_mk (l : List Char) : (⟨l⟩ : String).data = l := rfl

/-- The last element of a list ending in a fixed cons cell. -/
theorem getLast?_append_cons (l1 : List Char) (c : Char) (cs : List Char) :
    (l1 ++ c :: cs).getLast? = (c :: cs).getLast? := by
  induction l1 with
  | nil => rfl
  | cons d ds ih =>
    cases ds with
    | nil => rw [List.singleton_append, List.getLast?_cons_cons]
    | cons e es =>
      rw [List.cons_append, List.cons_append, List.getLast?_cons_cons]
      simpa using ih

/-- The last element, when present, is a member. -/
theorem getLast?_mem_own (l : List Char) (a : Char) (h : l.getLast? = some a) : a ∈ l := by
  induction l with
  | nil => simp at h
  | cons c cs ih =>
    cases cs with
    | nil =>
      simp [List.getLast?] at h
      simp [h]
    | cons d ds =>
      rw [List.getLast?_cons_cons] at h
      exact List.mem_cons_of_mem _ (ih h)

/-- `takeWhile` stops exactly at the first failing character. -/
theorem takeWhile_all_stop (p : Char → Bool) (u v : List Char) (c : Char)
    (hu : ∀ x ∈ u, p x = true) (hc : p c = false) :
    (u ++ c :: v).takeWhile p = u := by
  induction u with
  | nil => simp [List.takeWhile_cons, hc]
  | cons d ds ih =>
    rw [List.cons_append, List.takeWhile_cons, hu d (List.mem_cons_self d ds)]
    simp only [if_true]
    rw [ih (fun x hx => hu x (List.mem_cons_of_mem d hx))]

/-- A filename (final path component) contains no slash. -/
theorem fileName_no_slash (p : String) (c : Char) (hc : c ∈ (fileName p).data) : c ≠ '/' := by
  unfold fileName at hc
  rw [strData_mk, List.mem_reverse] at hc
  have h2 := List.mem_takeWhile_imp hc
  simpa using h2

/-- The stem's characters come from the filename. -/
theorem stem_data_cases (p : String) :
    (stem p).data = (fileName p).data ∨
    ∃ rest, (stem p).data = rest.reverse ∧
      (fileName p).data.reverse.dropWhile (fun c => c != '.') = '.' :: rest := by
  simp only [stem]
  split
  · rename_i rest hm
    split_ifs
    · exact Or.inl rfl
    · exact Or.inl rfl
    · exact Or.inr ⟨rest, rfl, hm⟩
  · exact Or.inl rfl

/-- Every character of the stem occurs in the filename. -/
theorem stem_mem_fileName (p : String) (c : Char) (hc : c ∈ (stem p).data) :
    c ∈ (fileName p).data := by
  rcases stem_data_cases p with h | ⟨rest, h1, h2⟩
  · rwa [h] at hc
  · rw [h1, List.mem_reverse] at hc
    have h3 : c ∈ ('.' :: rest : List Char) := List.mem_cons_of_mem _ hc
    rw [← h2] at h3
    have h4 := (List.dropWhile_sublist (fun c => c != '.')).mem h3
    rwa [List.mem_reverse] at h4

/-- `Path(dir + "/" + f).name = f` when `f` contains no slash. -/
theorem fileName_append_slashfree (dir fname : String)
    (hfn : ∀ c ∈ fname.data, c ≠ '/') : fileName (dir ++ "/" ++ fname) = fname := by
  apply strOfData_inj
  unfold fileName
  rw [strData_mk]
  rw [strData_append, strData_append]
  have h1 : (dir.data ++ "/".data) ++ fname.data = (dir.data ++ ['/']) ++ fname.data := rfl
  rw [h1, List.reverse_append, List.reverse_append]
  have h2 : (['/'] : List Char).reverse = ['/'] := rfl
  rw [h2, List.singleton_append]
  rw [takeWhile_all_stop _ _ _ _ (fun x hx => by
      have := hfn x (List.mem_reverse.mp hx)
      simpa using this) rfl]
  exact List.reverse_reverse _

/-- All characters of a backup filename avoid the slash. -/
theorem backupName_no_slash (path : String) (m : Int) (c : Char)
    (hc : c ∈ (backupName path m).data) : c ≠ '/' := by
  rw [backupName_data] at hc
  rcases List.mem_append.mp hc with h1 | h1
  · exact fileName_no_slash path c (stem_mem_fileName path c h1)
  · rcases List.mem_cons.mp h1 with h2 | h2
    · rw [h2]; decide
    · rcases List.mem_append.mp h2 with h3 | h3
      · have := intRender_mem m c h3
        intro hcc
        rw [hcc] at this
        exact absurd this (by decide)
      · intro hcc
        rw [hcc] at h3
        exact absurd h3 (by decide)

/-- The crux of the backup/listing mismatch: if the stem is neither the
configuration name nor an extension of `name_`, the backup filename
`<stem>_<ts>.yaml` does not start with `name_`. -/
theorem frontB_name_vs_backup (A S T : List Char)
    (hAS : A ≠ S)
    (hns : frontB (A ++ ['_']) S = false)
    (hT : ∀ c ∈ T, c ∈ '-' :: decChars) :
    frontB (A ++ ['_']) (S ++ '_' :: (T ++ ".yaml".data)) = false := by
  cases hfront : frontB (A ++ ['_']) (S ++ '_' :: (T ++ ".yaml".data)) with
  | false => rfl
  | true =>
    exfalso
    have h2 : frontB (A ++ ['_']) ((S ++ ['_']) ++ (T ++ ".yaml".data)) = true := by
      rw [List.append_assoc, List.singleton_append]
      exact hfront
    rcases frontB_append_cases _ _ _ h2 with h3 | ⟨t, ht, htw⟩
    · rcases frontB_append_cases _ _ _ h3 with h4 | ⟨t, ht, htw⟩
      · rw [hns] at h4
        exact absurd h4 (by simp)
      · rcases frontB_singleton _ _ htw with h5 | h5
        · rw [h5, List.append_nil] at ht
          have hh : frontB (A ++ ['_']) S = true := by
            rw [ht]
            have hr := frontB_refl_append S []
            rwa [List.append_nil] at hr
          rw [hns] at hh
          exact absurd hh (by simp)
        · rw [h5] at ht
          exact hAS (List.append_cancel_right ht)
    · cases t with
      | nil =>
        rw [List.append_nil] at ht
        exact hAS (List.append_cancel_right ht)
      | cons c cs =>
        have hlastL : (A ++ ['_']).getLast? = some '_' := by
          rw [getLast?_append_cons]
          rfl
        have hlast2 : (c :: cs : List Char).getLast? = some '_' := by
          rw [ht, getLast?_append_cons] at hlastL
          exact hlastL
        have hmem : '_' ∈ (c :: cs : List Char) := getLast?_mem_own _ _ hlast2
        have hmem2 := mem_of_frontB _ _ htw '_' hmem
        rcases List.mem_append.mp hmem2 with h6 | h6
        · exact absurd (hT '_' h6) (by decide)
        · exact absurd h6 (by decide)

/-- C10 (amended): a backup made for a path whose stem differs from the
configuration name is named after the stem; it is missed by
`list_backups(name)` whenever the stem does not itself begin with
`name_` — but (per the counterexample) it is returned when it does. -/
theorem backup_stem_mismatch_unlisted (cm : CM) (fs : FS) (name path : String) (f : FileInfo)
    (hf : fs.files.lookup path = some f) (hr : f.rOK = true)
    (hne : stem path ≠ name)
    (hns : startsW (stem path) (name ++ "_") = false) :
    create_backup cm fs path
      = (true, { fs with files := setA fs.files (backupPathOf cm path f.mtime) f }) ∧
    backupPathOf cm path f.mtime ∉ list_backups cm (create_backup cm fs path).2 name := by
  have h1 : create_backup cm fs path
      = (true, { fs with files := setA fs.files (backupPathOf cm path f.mtime) f }) := by
    unfold create_backup
    rw [hf]
    simp [hr]
  refine ⟨h1, ?_⟩
  intro hmem
  unfold list_backups at hmem
  have hmem2 := (sortDesc_perm _).mem_iff.mp hmem
  rw [List.mem_filterMap] at hmem2
  obtain ⟨pr, hpr, hcond⟩ := hmem2
  by_cases hc : (parentDir pr.1 == backupDirOf cm
      && globMatchB (fileName pr.1) name) = true
  · rw [if_pos hc] at hcond
    have hpr1 : pr.1 = backupPathOf cm path f.mtime := by
      injection hcond
    rw [hpr1] at hc
    simp only [Bool.and_eq_true] at hc
    have hglob : globMatchB (fileName (backupPathOf cm path f.mtime)) name = true := hc.2
    have hfn : fileName (backupPathOf cm path f.mtime) = backupName path f.mtime := by
      unfold backupPathOf
      exact fileName_append_slashfree _ _ (backupName_no_slash path f.mtime)
    rw [hfn] at hglob
    simp only [globMatchB, Bool.and_eq_true] at hglob
    have hstart : startsW (backupName path f.mtime) (name ++ "_") = true := hglob.1.1
    unfold startsW at hstart
    rw [backupName_data, strData_append] at hstart
    have hAeq : ("_" : String).data = ['_'] := rfl
    rw [hAeq] at hstart
    have hfalse := frontB_name_vs_backup name.data (stem path).data (intRender f.mtime)
      (fun hcc => hne (strOfData_inj _ _ hcc.symm))
      (by
        unfold startsW at hns
        rw [strData_append, hAeq] at hns
        exact hns)
      (fun c hcmem => intRender_mem f.mtime c hcmem)
    rw [hfalse] at hstart
    exact absurd hstart (by simp)
  · rw [if_neg hc] at hcond
    exact Option.noConfusion hcond

/-- Witness for C10 (amended): a backup of `/data/custom.yaml` is invisible
to `list_backups "settings"`. -/
theorem C10_witness :
    create_backup exCM exFS9 "/data/custom.yaml"
      = (true, { exFS9 with
          files := setA exFS9.files (backupPathOf exCM "/data/custom.yaml" 7)
            ⟨"x: 1\n", 7, true, true⟩ }) ∧
    backupPathOf exCM "/data/custom.yaml" 7
      ∉ list_backups exCM (create_backup exCM exFS9 "/data/custom.yaml").2 "settings" := by
  have h := backup_stem_mismatch_unlisted exCM exFS9 "settings" "/data/custom.yaml"
    ⟨"x: 1\n", 7, true, true⟩ (by decide) (by decide) (by decide) (by decide)
  exact h

/-- C10 is false as stated: when the custom path's stem extends the
configuration name by an underscore (here stem `settings_prod` for the
configuration `settings`), the backup is named after the stem and yet IS
returned by `list_backups "settings"`, whose glob `settings_*.yaml`
matches it. -/
theorem C10_counterexample :
    stem "/data/settings_prod.yaml" = "settings_prod" ∧
    ("settings_prod" : String) ≠ "settings" ∧
    (create_backup exCM exFS8 "/data/settings_prod.yaml").1 = true ∧
    list_backups exCM (create_backup exCM exFS8 "/data/settings_prod.yaml").2 "settings"
      = ["/app/backups/settings_prod_7.yaml"] ∧
    backupPathOf exCM "/data/settings_prod.yaml" 7 = "/app/backups/settings_prod_7.yaml" := by
  exact ⟨by decide, by decide, by decide, by decide, by decide⟩

/-- `restore_backup` fails and changes nothing when the backup is missing. -/
theorem restore_backup_missing (cm : CM) (fs : FS) (name b : String)
    (hb : fileExistsB fs b = false) :
    restore_backup cm fs name b = (false, fs) := by
  unfold restore_backup
  rw [hb]
  simp

/-- `restore_backup` on an existing, readable backup first backs up the
current target, then copies the backup's bytes over the target; an
immediately following `read_config` decodes exactly those bytes. -/
theorem restore_backup_success (cm : CM) (fs : FS) (name b : String) (e : CMEntry)
    (g : FileInfo)
    (he : cm.entries.lookup name = some e)
    (hg : fs.files.lookup b = some g)
    (hgr : g.rOK = true) (hgw : g.wOK = true)
    (hbt : b ≠ get_config_path cm name)
    (hsep : ∀ f, fs.files.lookup (get_config_path cm name) = some f →
      backupPathOf cm (get_config_path cm name) f.mtime ≠ b)
    (hsepT : ∀ f, fs.files.lookup (get_config_path cm name) = some f →
      backupPathOf cm (get_config_path cm name) f.mtime ≠ get_config_path cm name)
    (hsrcR : ∀ f, fs.files.lookup (get_config_path cm name) = some f → f.rOK = true)
    (hdstW : ∀ f, fs.files.lookup (get_config_path cm name) = some f → f.wOK = true)
    (hdstD : fs.files.lookup (get_config_path cm name) = none →
      dirWritableB fs (parentDir (get_config_path cm name)) = true) :
    (restore_backup cm fs name b).1 = true ∧
    (restore_backup cm fs name b).2.files.lookup (get_config_path cm name) = some g ∧
    (∀ f, fs.files.lookup (get_config_path cm name) = some f →
      (restore_backup cm fs name b).2.files.lookup
        (backupPathOf cm (get_config_path cm name) f.mtime) = some f) ∧
    (read_config cm (restore_backup cm fs name b).2 name).1
      = readResult (get_config_path cm name) g.content := by
  set target := get_config_path cm name with htarget
  set fs1 := if fileExistsB fs target then (create_backup cm fs target).2 else fs with hfs1
  have hbex : fileExistsB fs b = true := by
    unfold fileExistsB
    rw [hg]
    rfl
  have hbtB : (b != target) = true := by
    simp [bne_iff_ne, hbt]
  -- fs1 facts, by cases on the target's existence
  have hfs1facts : fs1.files.lookup b = some g ∧
      fs1.files.lookup target = fs.files.lookup target ∧
      (∀ f, fs.files.lookup target = some f →
        fs1.files.lookup (backupPathOf cm target f.mtime) = some f) ∧
      fs1.dirs = fs.dirs := by
    cases hf : fs.files.lookup target with
    | none =>
      have hex : fileExistsB fs target = false := by unfold fileExistsB; rw [hf]; rfl
      have hfs1eq : fs1 = fs := by rw [hfs1, hex]; simp
      rw [hfs1eq]
      exact ⟨hg, hf, fun f hff => absurd hff (by simp), rfl⟩
    | some f =>
      have hex : fileExistsB fs target = true := by unfold fileExistsB; rw [hf]; rfl
      have hcb : create_backup cm fs target
          = (true, { fs with files := setA fs.files (backupPathOf cm target f.mtime) f }) := by
        unfold create_backup
        rw [hf]
        simp [hsrcR f hf]
      have hfs1eq : fs1 = { fs with files := setA fs.files (backupPathOf cm target f.mtime) f } := by
        rw [hfs1, hex, if_pos rfl, hcb]
      rw [hfs1eq]
      refine ⟨?_, ?_, ?_, rfl⟩
      · rw [lookup_setA_ne _ _ _ _ (Ne.symm (hsep f hf))]
        exact hg
      · rw [lookup_setA_ne _ _ _ _ (Ne.symm (hsepT f hf))]
        exact hf
      · intro f2 hf2
        injection hf2 with hf2e
        subst hf2e
        exact lookup_setA_self _ _ _
  have hcopyok : copyOkB fs1 b target = true := by
    unfold copyOkB
    rw [hfs1facts.1, hfs1facts.2.1]
    cases hf : fs.files.lookup target with
    | none =>
      have hdw : dirWritableB fs1 (parentDir target) = true := by
        unfold dirWritableB
        rw [hfs1facts.2.2.2]
        have h2 := hdstD hf
        unfold dirWritableB at h2
        exact h2
      simp [hgr, hbtB, hdw]
    | some f =>
      simp [hgr, hbtB, hdstW f hf]
  have hres : restore_backup cm fs name b = (true, copy2 fs1 b target) := by
    unfold restore_backup
    simp only [← htarget, ← hfs1, hbex, hcopyok]
    simp
  have hcopy : (copy2 fs1 b target).files = setA fs1.files target g := by
    unfold copy2
    rw [hfs1facts.1]
  refine ⟨by rw [hres], ?_, ?_, ?_⟩
  · rw [hres]
    simp only [hcopy]
    exact lookup_setA_self _ _ _
  · intro f hf
    rw [hres]
    simp only [hcopy]
    rw [lookup_setA_ne _ _ _ _ (hsepT f hf)]
    exact hfs1facts.2.2.1 f hf
  · rw [hres]
    have hlookT : (copy2 fs1 b target).files.lookup target = some g := by
      rw [hcopy]
      exact lookup_setA_self _ _ _
    have hchk : check_privileges (copy2 fs1 b target) target = (true, "OK") := by
      unfold check_privileges
      rw [hlookT]
      simp [hgr, hgw]
    unfold read_config
    rw [he]
    simp [← htarget, hchk, hlookT, hgr]

/-- C7 (amended): `restore_backup` returns false for a missing backup;
otherwise — provided the fresh pre-restore backup of the current target
does not collide with the backup being restored — it first snapshots the
current target and then overwrites the target with the backup's bytes, so
that `read_config` immediately afterwards decodes exactly those bytes. -/
theorem restore_backup_modes :
    (∀ (cm : CM) (fs : FS) (name b : String), fileExistsB fs b = false →
      restore_backup cm fs name b = (false, fs)) ∧
    (∀ (cm : CM) (fs : FS) (name b : String) (e : CMEntry) (g : FileInfo),
      cm.entries.lookup name = some e →
      fs.files.lookup b = some g →
      g.rOK = true → g.wOK = true →
      b ≠ get_config_path cm name →
      (∀ f, fs.files.lookup (get_config_path cm name) = some f →
        backupPathOf cm (get_config_path cm name) f.mtime ≠ b) →
      (∀ f, fs.files.lookup (get_config_path cm name) = some f →
        backupPathOf cm (get_config_path cm name) f.mtime ≠ get_config_path cm name) →
      (∀ f, fs.files.lookup (get_config_path cm name) = some f → f.rOK = true) →
      (∀ f, fs.files.lookup (get_config_path cm name) = some f → f.wOK = true) →
      (fs.files.lookup (get_config_path cm name) = none →
        dirWritableB fs (parentDir (get_config_path cm name)) = true) →
      (restore_backup cm fs name b).1 = true ∧
      (restore_backup cm fs name b).2.files.lookup (get_config_path cm name) = some g ∧
      (∀ f, fs.files.lookup (get_config_path cm name) = some f →
        (restore_backup cm fs name b).2.files.lookup
          (backupPathOf cm (get_config_path cm name) f.mtime) = some f) ∧
      (read_config cm (restore_backup cm fs name b).2 name).1
        = readResult (get_config_path cm name) g.content) :=
  ⟨fun cm fs name b hb => restore_backup_missing cm fs name b hb,
   fun cm fs name b e g he hg hgr hgw hbt hsep hsepT hsrcR hdstW hdstD =>
     restore_backup_success cm fs name b e g he hg hgr hgw hbt hsep hsepT hsrcR hdstW hdstD⟩

/-- Witness for C7 (amended): a routine restore of `settings_7` over a
target whose fresh backup is `settings_9`. -/
theorem C7_witness :
    (restore_backup exCM exFS7 "settings" "/app/backups/settings_7.yaml").1 = true ∧
    (restore_backup exCM exFS7 "settings" "/app/backups/settings_7.yaml").2.files.lookup
        (get_config_path exCM "settings") = some ⟨"\"a\": 1\n", 7, true, true⟩ ∧
    (read_config exCM (restore_backup exCM exFS7 "settings" "/app/backups/settings_7.yaml").2
        "settings").1 = readResult (get_config_path exCM "settings") "\"a\": 1\n" := by
  have h := restore_backup_modes.2 exCM exFS7 "settings" "/app/backups/settings_7.yaml"
    ⟨"", true, true⟩ ⟨"\"a\": 1\n", 7, true, true⟩
    (by decide) (by decide) (by decide) (by decide) (by decide)
    (fun f hf => by
      have h2 : List.lookup (get_config_path exCM "settings") exFS7.files
          = some (⟨"x: 2\n", 9, true, true⟩ : FileInfo) := by decide
      rw [h2] at hf
      injection hf with h3
      subst h3
      decide)
    (fun f hf => by
      have h2 : List.lookup (get_config_path exCM "settings") exFS7.files
          = some (⟨"x: 2\n", 9, true, true⟩ : FileInfo) := by decide
      rw [h2] at hf
      injection hf with h3
      subst h3
      decide)
    (fun f hf => by
      have h2 : List.lookup (get_config_path exCM "settings") exFS7.files
          = some (⟨"x: 2\n", 9, true, true⟩ : FileInfo) := by decide
      rw [h2] at hf
      injection hf with h3
      subst h3
      decide)
    (fun f hf => by
      have h2 : List.lookup (get_config_path exCM "settings") exFS7.files
          = some (⟨"x: 2\n", 9, true, true⟩ : FileInfo) := by decide
      rw [h2] at hf
      injection hf with h3
      subst h3
      decide)
    (fun hf => by
      have h2 : List.lookup (get_config_path exCM "settings") exFS7.files
          = some (⟨"x: 2\n", 9, true, true⟩ : FileInfo) := by decide
      rw [h2] at hf
      exact Option.noConfusion hf)
  exact ⟨h.1, h.2.1, h.2.2.2⟩

/-- C7 is false as stated: when the backup being restored is the very file
the pre-restore snapshot writes (target stem and mtime name exactly `b`),
the snapshot overwrites `b` with the target's current bytes before the
copy, so the restore reports success yet leaves the target's bytes — not
`b`'s bytes at the time of the call — in place. -/
theorem C7_counterexample :
    exFS6.files.lookup "/app/backups/settings_5.yaml"
      = some ⟨"old", 4, true, true⟩ ∧
    (restore_backup exCM exFS6 "settings" "/app/backups/settings_5.yaml").1 = true ∧
    (restore_backup exCM exFS6 "settings" "/app/backups/settings_5.yaml").2.files.lookup
        "/app/settings.yaml" = some ⟨"new", 5, true, true⟩ := by
  exact ⟨by decide, by decide, by decide⟩

/-! ### Codec round trip: numerals -/

/-- Digit rendering inverts digit parsing. -/
theorem charDigit_digitChar (d : Nat) (h : d < 10) : charDigit (digitChar d) = some d := by
  interval_cases d <;> decide

/-- The digit accumulator distributes along appends. -/
theorem goDigits_append (xs ys : List Char) (acc : Nat) :
    goDigits (xs ++ ys) acc
      = match goDigits xs acc with
        | some a => goDigits ys a
        | none => none := by
  induction xs generalizing acc with
  | nil => simp [goDigits]
  | cons c cs ih =>
    simp only [List.cons_append, goDigits]
    cases hcd : charDigit c with
    | none => simp
    | some d => exact ih _

/-- Parsing the digits of `n` appends `n` to the accumulator. -/
theorem goDigits_natDigitsF (fuel : Nat) :
    ∀ n acc, n < fuel →
      goDigits (natDigitsF fuel n) acc
        = some (acc * 10 ^ (natDigitsF fuel n).length + n) := by
  induction fuel with
  | zero => intro n acc h; omega
  | succ fuel ih =>
    intro n acc h
    by_cases h10 : n < 10
    · simp only [natDigitsF, if_pos h10]
      simp [goDigits, charDigit_digitChar n h10]
    · simp only [natDigitsF, if_neg h10]
      rw [goDigits_append]
      have hlt : n / 10 < fuel := by
        have hd := Nat.div_lt_self (by omega : 0 < n) (by omega : 1 < 10)
        omega
      rw [ih (n / 10) acc hlt]
      simp only [goDigits, charDigit_digitChar (n % 10) (Nat.mod_lt n (by omega))]
      simp only [List.length_append, List.length_cons, List.length_nil]
      rw [pow_succ, ← mul_assoc]
      simp only [Option.some.injEq]
      have hmod := Nat.div_add_mod n 10
      set A := acc * 10 ^ (natDigitsF fuel (n / 10)).length with hA
      omega

/-- A rendered natural is never empty. -/
theorem natDigitsF_ne_nil (fuel n : Nat) (h : n < fuel) : natDigitsF fuel n ≠ [] := by
  cases fuel with
  | zero => omega
  | succ f =>
    by_cases h10 : n < 10
    · rw [natDigitsF]
      simp [h10]
    · rw [natDigitsF]
      simp [h10]

/-- Parsing inverts natural-number rendering. -/
theorem parseNatChars_natRender (n : Nat) : parseNatChars (natRender n) = some n := by
  unfold parseNatChars natRender
  have hne := natDigitsF_ne_nil (n+1) n (by omega)
  cases hh : natDigitsF (n+1) n with
  | nil => exact absurd hh hne
  | cons c cs =>
    have hg := goDigits_natDigitsF (n+1) n 0 (by omega)
    rw [hh] at hg
    simpa using hg

/-- A rendered natural starts with a digit. -/
theorem natRender_shape (n : Nat) : ∃ c cs, natRender n = c :: cs ∧ c ∈ decChars := by
  have hne := natDigitsF_ne_nil (n+1) n (by omega)
  cases hh : natDigitsF (n+1) n with
  | nil => exact absurd hh hne
  | cons c cs =>
    refine ⟨c, cs, by rw [natRender, hh], ?_⟩
    exact natDigitsF_mem (n+1) n c (by rw [hh]; exact List.mem_cons_self c cs)

/-- Parsing inverts integer rendering. -/
theorem parseIntChars_intRender (m : Int) : parseIntChars (intRender m) = some m := by
  unfold intRender
  by_cases h : m < 0
  · rw [if_pos h]
    have hstep : parseIntChars ('-' :: natRender m.natAbs)
        = (parseNatChars (natRender m.natAbs)).map (fun k => -(k : Int)) := by
      simp [parseIntChars]
    rw [hstep, parseNatChars_natRender]
    simp
    rw [abs_of_neg h]
    simp
  · rw [if_neg h]
    obtain ⟨c, cs, hr, hc⟩ := natRender_shape m.natAbs
    rw [hr]
    have hcd : c ≠ '-' := by
      intro hcc
      rw [hcc] at hc
      exact absurd hc (by decide)
    have hstep : parseIntChars (c :: cs)
        = (parseNatChars (c :: cs)).map (fun k => (k : Int)) := by
      simp [parseIntChars, hcd]
    rw [hstep, ← hr, parseNatChars_natRender]
    simp
    omega

/-! ### Codec round trip: quoted strings -/

/-- Scanning a quoted body undoes escaping. -/
theorem scanQ_escape (s rest : List Char) :
    scanQ (escapeChars s ++ '"' :: rest) = some (s, rest) := by
  induction s with
  | nil =>
    show scanQ ('"' :: rest) = some ([], rest)
    unfold scanQ
    rw [if_neg (by decide), if_pos rfl]
  | cons c cs ih =>
    unfold escapeChars
    by_cases h1 : c = '"'
    · subst h1
      simp [scanQ, ih]
    · rw [if_neg h1]
      by_cases h2 : c = '\\'
      · subst h2
        simp [scanQ, ih]
      · rw [if_neg h2]
        by_cases h3 : c = '\n'
        · subst h3
          simp [scanQ, ih]
        · rw [if_neg h3]
          show scanQ (c :: (escapeChars cs ++ '"' :: rest)) = _
          unfold scanQ
          rw [if_neg h2, if_neg h1, ih]
          rfl

/-! ### Codec round trip: single lines -/

/-- Scalars survive the inline-value detour. -/
theorem ivalDoc_sIVal (s : Scalar) : ivalDoc (sIVal s) = Doc.scl s := by
  cases s <;> rfl

/-- Rebuilding a string from its characters is the identity. -/
theorem strMk_data (s : String) : (⟨s.data⟩ : String) = s := by
  cases s
  rfl

/-- A rendered integer starts with a minus sign or digit. -/
theorem intRender_shape (m : Int) : ∃ c cs, intRender m = c :: cs ∧ c ∈ '-' :: decChars := by
  unfold intRender
  by_cases h : m < 0
  · rw [if_pos h]
    exact ⟨'-', natRender m.natAbs, rfl, List.mem_cons_self _ _⟩
  · rw [if_neg h]
    obtain ⟨c, cs, hr, hc⟩ := natRender_shape m.natAbs
    exact ⟨c, cs, hr, List.mem_cons_of_mem _ hc⟩

/-- Parsing inverts inline-value rendering. -/
theorem parseIVal_renderIVal (v : IVal) : parseIVal (renderIVal v) = some v := by
  cases v with
  | inull => decide
  | ibool b => cases b <;> decide
  | iarr0 => decide
  | iobj0 => decide
  | iint n =>
    obtain ⟨c, cs, hr, hc⟩ := intRender_shape n
    show parseIVal (intRender n) = some (IVal.iint n)
    rw [hr]
    have hq : c ≠ '"' := by
      intro hcc
      rw [hcc] at hc
      exact absurd hc (by decide)
    simp only [parseIVal, if_neg hq]
    rw [← hr, parseIntChars_intRender]
  | istr s =>
    show parseIVal (quoteStr s) = some (IVal.istr s)
    unfold quoteStr
    rw [List.cons_append]
    simp only [parseIVal, if_pos rfl]
    rw [scanQ_escape]
    simp [strMk_data]

/-- Parsing inverts token rendering. -/
theorem parseTok_renderTok (t : Tok) : parseTok (renderTok t) = some t := by
  cases t with
  | item => decide
  | bare v =>
    cases v with
    | inull => decide
    | ibool b => cases b <;> decide
    | iarr0 => decide
    | iobj0 => decide
    | iint n =>
      show parseTok (intRender n) = some (Tok.bare (IVal.iint n))
      by_cases h : n < 0
      · have hir : intRender n = '-' :: natRender n.natAbs := by
          unfold intRender
          rw [if_pos h]
        obtain ⟨d, ds, hr, hd⟩ := natRender_shape n.natAbs
        rw [hir, hr]
        have hds : d ≠ ' ' := by
          intro hcc
          rw [hcc] at hd
          exact absurd hd (by decide)
        simp only [parseTok, if_pos rfl, if_neg hds]
        rw [← hr, ← hir]
        have hp := parseIVal_renderIVal (IVal.iint n)
        rw [show renderIVal (IVal.iint n) = intRender n from rfl] at hp
        rw [hp]
        rfl
      · have hir : intRender n = natRender n.natAbs := by
          unfold intRender
          rw [if_neg h]
        obtain ⟨d, ds, hr, hd⟩ := natRender_shape n.natAbs
        rw [hir, hr]
        have hd1 : d ≠ '-' := by
          intro hcc
          rw [hcc] at hd
          exact absurd hd (by decide)
        have hd2 : d ≠ '"' := by
          intro hcc
          rw [hcc] at hd
          exact absurd hd (by decide)
        simp only [parseTok, if_neg hd1, if_neg hd2]
        rw [← hr, ← hir]
        have hp := parseIVal_renderIVal (IVal.iint n)
        rw [show renderIVal (IVal.iint n) = intRender n from rfl] at hp
        rw [hp]
        rfl
    | istr s =>
      show parseTok (quoteStr s) = some (Tok.bare (IVal.istr s))
      unfold quoteStr
      rw [List.cons_append]
      simp only [parseTok, if_neg (by decide : ('"' : Char) ≠ '-'), if_pos rfl]
      rw [scanQ_escape]
      simp [strMk_data]
  | itemVal v =>
    show parseTok ('-' :: ' ' :: renderIVal v) = some (Tok.itemVal v)
    simp only [parseTok, if_pos rfl]
    rw [parseIVal_renderIVal]
    rfl
  | key k =>
    show parseTok (quoteStr k ++ [':']) = some (Tok.key k)
    unfold quoteStr
    rw [List.cons_append, List.cons_append, List.append_assoc, List.singleton_append]
    simp only [parseTok, if_neg (by decide : ('"' : Char) ≠ '-'), if_pos rfl]
    rw [scanQ_escape]
    simp [strMk_data]
  | keyVal k v =>
    show parseTok (quoteStr k ++ ':' :: ' ' :: renderIVal v) = some (Tok.keyVal k v)
    unfold quoteStr
    rw [List.cons_append, List.cons_append, List.append_assoc, List.singleton_append]
    simp only [parseTok, if_neg (by decide : ('"' : Char) ≠ '-'), if_pos rfl]
    rw [scanQ_escape]
    simp [parseIVal_renderIVal, strMk_data]

/-- Leading spaces split off exactly. -/
theorem splitSpaces_prepend (n : Nat) (c : Char) (cs : List Char) (hc : c ≠ ' ') :
    splitSpaces (List.replicate n ' ' ++ c :: cs) = (n, c :: cs) := by
  induction n with
  | zero =>
    simp only [List.replicate, List.nil_append, splitSpaces, if_neg hc]
  | succ n ih =>
    show splitSpaces (' ' :: (List.replicate n ' ' ++ c :: cs)) = (n + 1, c :: cs)
    simp [splitSpaces, ih]

/-- A rendered token starts with a non-space character. -/
theorem renderTok_shape (t : Tok) : ∃ c cs, renderTok t = c :: cs ∧ c ≠ ' ' := by
  cases t with
  | item => exact ⟨'-', [], by decide, by decide⟩
  | itemVal v => exact ⟨'-', ' ' :: renderIVal v, rfl, by decide⟩
  | key k => exact ⟨'"', escapeChars k.data ++ ['"'] ++ [':'], by simp [renderTok, quoteStr], by decide⟩
  | keyVal k v =>
    exact ⟨'"', escapeChars k.data ++ ['"'] ++ ':' :: ' ' :: renderIVal v,
      by simp [renderTok, quoteStr], by decide⟩
  | bare v =>
    cases v with
    | inull => exact ⟨'n', ['u', 'l', 'l'], by decide, by decide⟩
    | ibool b =>
      cases b
      · exact ⟨'f', ['a', 'l', 's', 'e'], by decide, by decide⟩
      · exact ⟨'t', ['r', 'u', 'e'], by decide, by decide⟩
    | iarr0 => exact ⟨'[', [']'], by decide, by decide⟩
    | iobj0 => exact ⟨'\x7b', ['\x7d'], by decide, by decide⟩
    | istr s => exact ⟨'"', escapeChars s.data ++ ['"'], by simp [renderTok, renderIVal, quoteStr], by decide⟩
    | iint n =>
      obtain ⟨c, cs, hr, hc⟩ := intRender_shape n
      refine ⟨c, cs, hr, ?_⟩
      intro hcc
      rw [hcc] at hc
      exact absurd hc (by decide)

/-- Parsing inverts line rendering. -/
theorem parseLine_renderLine (l : Line) : parseLine (renderLine l) = some l := by
  obtain ⟨n, t⟩ := l
  obtain ⟨c, cs, hr, hc⟩ := renderTok_shape t
  unfold renderLine parseLine
  simp only []
  rw [hr, splitSpaces_prepend n c cs hc, ← hr, parseTok_renderTok]
  rfl

/-! ### Codec round trip: splitting rendered content back into lines -/

/-- Escaping removes every newline. -/
theorem escapeChars_noNL (l : List Char) : ∀ c ∈ escapeChars l, c ≠ '\n' := by
  induction l with
  | nil => intro c hc; simp [escapeChars] at hc
  | cons a rest ih =>
    intro c hc
    by_cases h1 : a = '"'
    · simp only [escapeChars, if_pos h1, List.mem_cons] at hc
      rcases hc with h | h | h
      · subst h; decide
      · subst h; decide
      · exact ih c h
    · by_cases h2 : a = '\\'
      · simp only [escapeChars, if_neg h1, if_pos h2, List.mem_cons] at hc
        rcases hc with h | h | h
        · subst h; decide
        · subst h; decide
        · exact ih c h
      · by_cases h3 : a = '\n'
        · simp only [escapeChars, if_neg h1, if_neg h2, if_pos h3, List.mem_cons] at hc
          rcases hc with h | h | h
          · subst h; decide
          · subst h; decide
          · exact ih c h
        · simp only [escapeChars, if_neg h1, if_neg h2, if_neg h3, List.mem_cons] at hc
          rcases hc with h | h
          · subst h; exact h3
          · exact ih c h

/-- A quoted string contains no newline. -/
theorem quoteStr_noNL (s : String) : ∀ c ∈ quoteStr s, c ≠ '\n' := by
  intro c hc
  unfold quoteStr at hc
  rw [List.cons_append] at hc
  rcases List.mem_cons.mp hc with h | h
  · subst h; decide
  · rcases List.mem_append.mp h with h | h
    · exact escapeChars_noNL _ c h
    · simp at h; subst h; decide

/-- A rendered inline value contains no newline. -/
theorem renderIVal_noNL (v : IVal) : ∀ c ∈ renderIVal v, c ≠ '\n' := by
  cases v with
  | inull => decide
  | ibool b => cases b <;> decide
  | iarr0 => decide
  | iobj0 => decide
  | istr s => exact quoteStr_noNL s
  | iint n =>
    intro c hc h
    subst h
    exact absurd (intRender_mem n '\n' hc) (by decide)

/-- A rendered token contains no newline. -/
theorem renderTok_noNL (t : Tok) : ∀ c ∈ renderTok t, c ≠ '\n' := by
  intro c hc
  cases t with
  | bare v => exact renderIVal_noNL v c hc
  | item =>
    simp [renderTok] at hc
    subst hc
    decide
  | itemVal v =>
    simp only [renderTok, List.mem_cons] at hc
    rcases hc with h | h | h
    · subst h; decide
    · subst h; decide
    · exact renderIVal_noNL v c h
  | key k =>
    simp only [renderTok] at hc
    rcases List.mem_append.mp hc with h | h
    · exact quoteStr_noNL k c h
    · simp at h; subst h; decide
  | keyVal k v =>
    simp only [renderTok] at hc
    rcases List.mem_append.mp hc with h | h
    · exact quoteStr_noNL k c h
    · simp only [List.mem_cons] at h
      rcases h with h | h | h
      · subst h; decide
      · subst h; decide
      · exact renderIVal_noNL v c h

/-- A rendered line contains no newline. -/
theorem renderLine_noNL (l : Line) : ∀ c ∈ renderLine l, c ≠ '\n' := by
  intro c hc
  obtain ⟨n, t⟩ := l
  unfold renderLine at hc
  rcases List.mem_append.mp hc with h | h
  · have := List.eq_of_mem_replicate h
    subst this
    decide
  · exact renderTok_noNL t c h

/-- Splitting after a newline-free prefix peels off that prefix. -/
theorem splitNL_prepend (x ys : List Char) (hx : ∀ c ∈ x, c ≠ '\n') :
    splitNL (x ++ '\n' :: ys) = x :: splitNL ys := by
  induction x with
  | nil => simp [splitNL]
  | cons c cs ih =>
    have hc : c ≠ '\n' := hx c (List.mem_cons_self c cs)
    have hcs : ∀ d ∈ cs, d ≠ '\n' := fun d hd => hx d (List.mem_cons_of_mem c hd)
    rw [List.cons_append]
    simp only [splitNL, if_neg hc, ih hcs]

/-- Splitting inverts joining for newline-free lines, up to a trailing empty line. -/
theorem splitNL_joinNL (xs : List (List Char)) (h : ∀ l ∈ xs, ∀ c ∈ l, c ≠ '\n') :
    splitNL (joinNL xs) = xs ++ [[]] := by
  induction xs with
  | nil => rfl
  | cons x xs ih =>
    have hx := h x (List.mem_cons_self x xs)
    have hxs : ∀ l ∈ xs, ∀ c ∈ l, c ≠ '\n' := fun l hl => h l (List.mem_cons_of_mem x hl)
    have hj : joinNL (x :: xs) = x ++ '\n' :: joinNL xs := by
      simp [joinNL, List.flatMap_cons]
    rw [hj, splitNL_prepend x _ hx, ih hxs]
    rfl

/-- Dropping the trailing empty line undoes the final newline. -/
theorem dropTrailingEmpty_concat (xs : List (List Char)) :
    dropTrailingEmpty (xs ++ [[]]) = xs := by
  unfold dropTrailingEmpty
  rw [List.getLast?_concat]
  simp

/-- Parsing every rendered line succeeds. -/
theorem mapM_parseLine (ls : List Line) : (ls.map renderLine).mapM parseLine = some ls := by
  induction ls with
  | nil => rfl
  | cons l ls ih =>
    rw [List.map_cons, List.mapM_cons, parseLine_renderLine, ih]
    rfl

/-- Splitting rendered content recovers the original lines. -/
theorem toLines_render (ls : List Line) :
    toLines ⟨joinNL (ls.map renderLine)⟩ = some ls := by
  unfold toLines
  have hnl : ∀ l ∈ ls.map renderLine, ∀ c ∈ l, c ≠ '\n' := by
    intro l hl c hc
    obtain ⟨x, hx, rfl⟩ := List.mem_map.mp hl
    exact renderLine_noNL x c hc
  rw [show (⟨joinNL (ls.map renderLine)⟩ : String).data = joinNL (ls.map renderLine) from rfl]
  rw [splitNL_joinNL _ hnl, dropTrailingEmpty_concat]
  exact mapM_parseLine ls

/-! ### Codec round trip: block structure -/

/-- The first line of a rendered item sits exactly at its indent. -/
theorem itemL_head (d : Doc) (i : Nat) : ∃ t tl, itemL d i = (i, t) :: tl := by
  cases d with
  | scl s => exact ⟨Tok.itemVal (sIVal s), [], rfl⟩
  | arr xs =>
    cases xs with
    | nil => exact ⟨Tok.itemVal IVal.iarr0, [], rfl⟩
    | cons x tl => exact ⟨Tok.item, itemL x (i+2) ++ listL tl (i+2), rfl⟩
  | obj m =>
    cases m with
    | nil => exact ⟨Tok.itemVal IVal.iobj0, [], rfl⟩
    | cons k v tl => exact ⟨Tok.item, keyL k v (i+2) ++ mapL tl (i+2), rfl⟩

/-- The first line of a rendered entry sits exactly at its indent. -/
theorem keyL_head (k : String) (d : Doc) (i : Nat) : ∃ t tl, keyL k d i = (i, t) :: tl := by
  cases d with
  | scl s => exact ⟨Tok.keyVal k (sIVal s), [], rfl⟩
  | arr xs =>
    cases xs with
    | nil => exact ⟨Tok.keyVal k IVal.iarr0, [], rfl⟩
    | cons x tl => exact ⟨Tok.key k, itemL x (i+2) ++ listL tl (i+2), rfl⟩
  | obj m =>
    cases m with
    | nil => exact ⟨Tok.keyVal k IVal.iobj0, [], rfl⟩
    | cons k2 v tl => exact ⟨Tok.key k, keyL k2 v (i+2) ++ mapL tl (i+2), rfl⟩

/-- A rendered item opens a sequence item at its indent. -/
theorem isItemHeadB_itemL (d : Doc) (i : Nat) (rest : List Line) :
    isItemHeadB (itemL d i ++ rest) i = true := by
  cases d with
  | scl s => simp [itemL, isItemHeadB]
  | arr xs => cases xs <;> simp [itemL, isItemHeadB]
  | obj m => cases m <;> simp [itemL, isItemHeadB]

/-- A rendered entry opens a mapping entry at its indent. -/
theorem isMapHeadB_keyL (k : String) (d : Doc) (i : Nat) (rest : List Line) :
    isMapHeadB (keyL k d i ++ rest) i = true := by
  cases d with
  | scl s => simp [keyL, isMapHeadB]
  | arr xs => cases xs <;> simp [keyL, isMapHeadB]
  | obj m => cases m <;> simp [keyL, isMapHeadB]

/-- A rendered entry does not open a sequence item. -/
theorem isItemHeadB_keyL (k : String) (d : Doc) (i : Nat) (rest : List Line) :
    isItemHeadB (keyL k d i ++ rest) i = false := by
  cases d with
  | scl s => simp [keyL, isItemHeadB]
  | arr xs => cases xs <;> simp [keyL, isItemHeadB]
  | obj m => cases m <;> simp [keyL, isItemHeadB]

/-- Lines indented strictly less than `i` never open an item at `i`. -/
theorem headLT_isItemHeadB (ls : List Line) (i : Nat) (h : headLT ls i) :
    isItemHeadB ls i = false := by
  cases ls with
  | nil => rfl
  | cons a tl =>
    obtain ⟨j, t⟩ := a
    have hj : j < i := h
    cases t <;> simp [isItemHeadB] <;> omega

/-- Lines indented strictly less than `i` never open an entry at `i`. -/
theorem headLT_isMapHeadB (ls : List Line) (i : Nat) (h : headLT ls i) :
    isMapHeadB ls i = false := by
  cases ls with
  | nil => rfl
  | cons a tl =>
    obtain ⟨j, t⟩ := a
    have hj : j < i := h
    cases t <;> simp [isMapHeadB] <;> omega

/-- Weaken a strict head bound. -/
theorem headLE_of_headLT (ls : List Line) (i : Nat) (h : headLT ls i) : headLE ls i := by
  cases ls with
  | nil => trivial
  | cons a tl =>
    obtain ⟨j, t⟩ := a
    have hj : j < i := h
    show j ≤ i
    omega

/-- Raise a head bound strictly. -/
theorem headLT_mono (ls : List Line) (i j : Nat) (hij : i < j) (h : headLE ls i) :
    headLT ls j := by
  cases ls with
  | nil => trivial
  | cons a tl =>
    obtain ⟨m, t⟩ := a
    have hm : m ≤ i := h
    show m < j
    omega

/-- A rendered sequence body keeps the head bound. -/
theorem headLE_listL (xs : DocList) (i : Nat) (rest : List Line) (h : headLE rest i) :
    headLE (listL xs i ++ rest) i := by
  cases xs with
  | nil => simpa [listL] using h
  | cons x tl =>
    obtain ⟨t, tl', hh⟩ := itemL_head x i
    show headLE ((itemL x i ++ listL tl i) ++ rest) i
    rw [List.append_assoc, hh, List.cons_append]
    show i ≤ i
    exact le_refl i

/-- A rendered mapping body keeps the head bound. -/
theorem headLE_mapL (m : DocMap) (i : Nat) (rest : List Line) (h : headLE rest i) :
    headLE (mapL m i ++ rest) i := by
  cases m with
  | nil => simpa [mapL] using h
  | cons k v tl =>
    obtain ⟨t, tl', hh⟩ := keyL_head k v i
    show headLE ((keyL k v i ++ mapL tl i) ++ rest) i
    rw [List.append_assoc, hh, List.cons_append]
    show i ≤ i
    exact le_refl i

/-- A rendered scalar item parses back. -/
theorem itemRT_scl (s : Scalar) : ItemRT (Doc.scl s) := by
  intro i rest fuel hf _
  cases fuel with
  | zero => omega
  | succ f =>
    show parseOneItem (f+1) ((i, Tok.itemVal (sIVal s)) :: rest) i = some (Doc.scl s, rest)
    simp [parseOneItem, ivalDoc_sIVal]

/-- A rendered scalar entry parses back. -/
theorem entryRT_scl (s : Scalar) : EntryRT (Doc.scl s) := by
  intro k i rest fuel hf _
  cases fuel with
  | zero => omega
  | succ f =>
    show parseOneEntry (f+1) ((i, Tok.keyVal k (sIVal s)) :: rest) i = some ((k, Doc.scl s), rest)
    simp [parseOneEntry, ivalDoc_sIVal]

/-- An empty rendered sequence body parses back. -/
theorem seqRT_nil : SeqRT DocList.nil := by
  intro i rest fuel hf hlt
  cases fuel with
  | zero => omega
  | succ f =>
    show parseSeqTail (f+1) ([] ++ rest) i = some (DocList.nil, rest)
    rw [List.nil_append]
    simp [parseSeqTail, headLT_isItemHeadB rest i hlt]

/-- An empty rendered mapping body parses back. -/
theorem mapRT_nil : MapRT DocMap.nil := by
  intro i rest fuel hf hlt
  cases fuel with
  | zero => omega
  | succ f =>
    show parseMapTail (f+1) ([] ++ rest) i = some (DocMap.nil, rest)
    rw [List.nil_append]
    simp [parseMapTail, headLT_isMapHeadB rest i hlt]

/-- A rendered sequence item parses back, given its body does. -/
theorem itemRT_arr (xs : DocList) (hs : SeqRT xs) : ItemRT (Doc.arr xs) := by
  cases xs with
  | nil =>
    intro i rest fuel hf _
    cases fuel with
    | zero => omega
    | succ f =>
      show parseOneItem (f+1) ((i, Tok.itemVal IVal.iarr0) :: rest) i
          = some (Doc.arr DocList.nil, rest)
      simp [parseOneItem, ivalDoc]
  | cons x tl =>
    intro i rest fuel hf hle
    have hlen : (itemL (Doc.arr (DocList.cons x tl)) i).length
        = (listL (DocList.cons x tl) (i+2)).length + 1 := by
      show ((i, Tok.item) :: (itemL x (i+2) ++ listL tl (i+2))).length
          = (itemL x (i+2) ++ listL tl (i+2)).length + 1
      simp
    cases fuel with
    | zero => omega
    | succ f =>
      cases f with
      | zero => rw [hlen] at hf; omega
      | succ f' =>
        have hle2 : headLT rest (i+2) := headLT_mono rest i (i+2) (by omega) hle
        have harith : 3 * ((listL (DocList.cons x tl) (i+2)).length + rest.length) + 2 ≤ f' := by
          rw [hlen] at hf
          omega
        have hseq := hs (i+2) rest f' harith hle2
        have hlst : listL (DocList.cons x tl) (i+2) = itemL x (i+2) ++ listL tl (i+2) := rfl
        rw [hlst, List.append_assoc] at hseq
        show parseOneItem (f'+1+1)
            ((i, Tok.item) :: ((itemL x (i+2) ++ listL tl (i+2)) ++ rest)) i
            = some (Doc.arr (DocList.cons x tl), rest)
        rw [List.append_assoc]
        simp [parseOneItem, parseNode,
          isItemHeadB_itemL x (i+2) (listL tl (i+2) ++ rest), hseq]

/-- A rendered mapping item parses back, given its body does. -/
theorem itemRT_obj (m : DocMap) (hm : MapRT m) : ItemRT (Doc.obj m) := by
  cases m with
  | nil =>
    intro i rest fuel hf _
    cases fuel with
    | zero => omega
    | succ f =>
      show parseOneItem (f+1) ((i, Tok.itemVal IVal.iobj0) :: rest) i
          = some (Doc.obj DocMap.nil, rest)
      simp [parseOneItem, ivalDoc]
  | cons k v tl =>
    intro i rest fuel hf hle
    have hlen : (itemL (Doc.obj (DocMap.cons k v tl)) i).length
        = (mapL (DocMap.cons k v tl) (i+2)).length + 1 := by
      show ((i, Tok.item) :: (keyL k v (i+2) ++ mapL tl (i+2))).length
          = (keyL k v (i+2) ++ mapL tl (i+2)).length + 1
      simp
    cases fuel with
    | zero => omega
    | succ f =>
      cases f with
      | zero => rw [hlen] at hf; omega
      | succ f' =>
        have hle2 : headLT rest (i+2) := headLT_mono rest i (i+2) (by omega) hle
        have harith : 3 * ((mapL (DocMap.cons k v tl) (i+2)).length + rest.length) + 2 ≤ f' := by
          rw [hlen] at hf
          omega
        have hmap := hm (i+2) rest f' harith hle2
        have hlst : mapL (DocMap.cons k v tl) (i+2) = keyL k v (i+2) ++ mapL tl (i+2) := rfl
        rw [hlst, List.append_assoc] at hmap
        show parseOneItem (f'+1+1)
            ((i, Tok.item) :: ((keyL k v (i+2) ++ mapL tl (i+2)) ++ rest)) i
            = some (Doc.obj (DocMap.cons k v tl), rest)
        rw [List.append_assoc]
        simp [parseOneItem, parseNode,
          isItemHeadB_keyL k v (i+2) (mapL tl (i+2) ++ rest),
          isMapHeadB_keyL k v (i+2) (mapL tl (i+2) ++ rest), hmap]

/-- A rendered sequence entry parses back, given its body does. -/
theorem entryRT_arr (xs : DocList) (hs : SeqRT xs) : EntryRT (Doc.arr xs) := by
  cases xs with
  | nil =>
    intro k i rest fuel hf _
    cases fuel with
    | zero => omega
    | succ f =>
      show parseOneEntry (f+1) ((i, Tok.keyVal k IVal.iarr0) :: rest) i
          = some ((k, Doc.arr DocList.nil), rest)
      simp [parseOneEntry, ivalDoc]
  | cons x tl =>
    intro k i rest fuel hf hle
    have hlen : (keyL k (Doc.arr (DocList.cons x tl)) i).length
        = (listL (DocList.cons x tl) (i+2)).length + 1 := by
      show ((i, Tok.key k) :: (itemL x (i+2) ++ listL tl (i+2))).length
          = (itemL x (i+2) ++ listL tl (i+2)).length + 1
      simp
    cases fuel with
    | zero => omega
    | succ f =>
      cases f with
      | zero => rw [hlen] at hf; omega
      | succ f' =>
        have hle2 : headLT rest (i+2) := headLT_mono rest i (i+2) (by omega) hle
        have harith : 3 * ((listL (DocList.cons x tl) (i+2)).length + rest.length) + 2 ≤ f' := by
          rw [hlen] at hf
          omega
        have hseq := hs (i+2) rest f' harith hle2
        have hlst : listL (DocList.cons x tl) (i+2) = itemL x (i+2) ++ listL tl (i+2) := rfl
        rw [hlst, List.append_assoc] at hseq
        show parseOneEntry (f'+1+1)
            ((i, Tok.key k) :: ((itemL x (i+2) ++ listL tl (i+2)) ++ rest)) i
            = some ((k, Doc.arr (DocList.cons x tl)), rest)
        rw [List.append_assoc]
        simp [parseOneEntry, parseNode,
          isItemHeadB_itemL x (i+2) (listL tl (i+2) ++ rest), hseq]

/-- A rendered mapping entry parses back, given its body does. -/
theorem entryRT_obj (m : DocMap) (hm : MapRT m) : EntryRT (Doc.obj m) := by
  cases m with
  | nil =>
    intro k i rest fuel hf _
    cases fuel with
    | zero => omega
    | succ f =>
      show parseOneEntry (f+1) ((i, Tok.keyVal k IVal.iobj0) :: rest) i
          = some ((k, Doc.obj DocMap.nil), rest)
      simp [parseOneEntry, ivalDoc]
  | cons k2 v tl =>
    intro k i rest fuel hf hle
    have hlen : (keyL k (Doc.obj (DocMap.cons k2 v tl)) i).length
        = (mapL (DocMap.cons k2 v tl) (i+2)).length + 1 := by
      show ((i, Tok.key k) :: (keyL k2 v (i+2) ++ mapL tl (i+2))).length
          = (keyL k2 v (i+2) ++ mapL tl (i+2)).length + 1
      simp
    cases fuel with
    | zero => omega
    | succ f =>
      cases f with
      | zero => rw [hlen] at hf; omega
      | succ f' =>
        have hle2 : headLT rest (i+2) := headLT_mono rest i (i+2) (by omega) hle
        have harith : 3 * ((mapL (DocMap.cons k2 v tl) (i+2)).length + rest.length) + 2 ≤ f' := by
          rw [hlen] at hf
          omega
        have hmap := hm (i+2) rest f' harith hle2
        have hlst : mapL (DocMap.cons k2 v tl) (i+2) = keyL k2 v (i+2) ++ mapL tl (i+2) := rfl
        rw [hlst, List.append_assoc] at hmap
        show parseOneEntry (f'+1+1)
            ((i, Tok.key k) :: ((keyL k2 v (i+2) ++ mapL tl (i+2)) ++ rest)) i
            = some ((k, Doc.obj (DocMap.cons k2 v tl)), rest)
        rw [List.append_assoc]
        simp [parseOneEntry, parseNode,
          isItemHeadB_keyL k2 v (i+2) (mapL tl (i+2) ++ rest),
          isMapHeadB_keyL k2 v (i+2) (mapL tl (i+2) ++ rest), hmap]

/-- A rendered nonempty sequence body parses back, given head and tail do. -/
theorem seqRT_cons (d : Doc) (tl : DocList) (hd : ItemRT d) (htl : SeqRT tl) :
    SeqRT (DocList.cons d tl) := by
  intro i rest fuel hf hlt
  obtain ⟨t0, tl0, hh⟩ := itemL_head d i
  have hI : 1 ≤ (itemL d i).length := by rw [hh]; simp
  have hlen : (listL (DocList.cons d tl) i).length
      = (itemL d i).length + (listL tl i).length := by
    show (itemL d i ++ listL tl i).length = _
    simp
  cases fuel with
  | zero => omega
  | succ f =>
    rw [hlen] at hf
    have hle1 : headLE (listL tl i ++ rest) i :=
      headLE_listL tl i rest (headLE_of_headLT rest i hlt)
    have harith1 : 3 * ((itemL d i).length + (listL tl i ++ rest).length) + 1 ≤ f := by
      simp only [List.length_append]
      omega
    have hone := hd i (listL tl i ++ rest) f harith1 hle1
    have harith2 : 3 * ((listL tl i).length + rest.length) + 2 ≤ f := by omega
    have hrec := htl i rest f harith2 hlt
    show parseSeqTail (f+1) ((itemL d i ++ listL tl i) ++ rest) i
        = some (DocList.cons d tl, rest)
    rw [List.append_assoc]
    simp [parseSeqTail, isItemHeadB_itemL d i (listL tl i ++ rest), hone, hrec]

/-- A rendered nonempty mapping body parses back, given head and tail do. -/
theorem mapRT_cons (k : String) (v : Doc) (tl : DocMap) (hv : EntryRT v) (htl : MapRT tl) :
    MapRT (DocMap.cons k v tl) := by
  intro i rest fuel hf hlt
  obtain ⟨t0, tl0, hh⟩ := keyL_head k v i
  have hI : 1 ≤ (keyL k v i).length := by rw [hh]; simp
  have hlen : (mapL (DocMap.cons k v tl) i).length
      = (keyL k v i).length + (mapL tl i).length := by
    show (keyL k v i ++ mapL tl i).length = _
    simp
  cases fuel with
  | zero => omega
  | succ f =>
    rw [hlen] at hf
    have hle1 : headLE (mapL tl i ++ rest) i :=
      headLE_mapL tl i rest (headLE_of_headLT rest i hlt)
    have harith1 : 3 * ((keyL k v i).length + (mapL tl i ++ rest).length) + 1 ≤ f := by
      simp only [List.length_append]
      omega
    have hone := hv k i (mapL tl i ++ rest) f harith1 hle1
    have harith2 : 3 * ((mapL tl i).length + rest.length) + 2 ≤ f := by omega
    have hrec := htl i rest f harith2 hlt
    show parseMapTail (f+1) ((keyL k v i ++ mapL tl i) ++ rest) i
        = some (DocMap.cons k v tl, rest)
    rw [List.append_assoc]
    simp [parseMapTail, isMapHeadB_keyL k v i (mapL tl i ++ rest), hone, hrec]

/-- Every rendered item and entry parses back to its document. -/
theorem docRT (d : Doc) : ItemRT d ∧ EntryRT d :=
  @Doc.rec (fun d => ItemRT d ∧ EntryRT d) (fun xs => SeqRT xs) (fun m => MapRT m)
    (fun s => ⟨itemRT_scl s, entryRT_scl s⟩)
    (fun xs hq => ⟨itemRT_arr xs hq, entryRT_arr xs hq⟩)
    (fun m hr => ⟨itemRT_obj m hr, entryRT_obj m hr⟩)
    seqRT_nil
    (fun hd tl hp hq => seqRT_cons hd tl hp.1 hq)
    mapRT_nil
    (fun k v tl hp hr => mapRT_cons k v tl hp.2 hr)
    d

/-- Every rendered sequence body parses back. -/
theorem seqRT_all (xs : DocList) : SeqRT xs :=
  @DocList.rec (fun d => ItemRT d ∧ EntryRT d) (fun xs => SeqRT xs) (fun m => MapRT m)
    (fun s => ⟨itemRT_scl s, entryRT_scl s⟩)
    (fun xs hq => ⟨itemRT_arr xs hq, entryRT_arr xs hq⟩)
    (fun m hr => ⟨itemRT_obj m hr, entryRT_obj m hr⟩)
    seqRT_nil
    (fun hd tl hp hq => seqRT_cons hd tl hp.1 hq)
    mapRT_nil
    (fun k v tl hp hr => mapRT_cons k v tl hp.2 hr)
    xs

/-- Every rendered mapping body parses back. -/
theorem mapRT_all (m : DocMap) : MapRT m :=
  @DocMap.rec (fun d => ItemRT d ∧ EntryRT d) (fun xs => SeqRT xs) (fun m => MapRT m)
    (fun s => ⟨itemRT_scl s, entryRT_scl s⟩)
    (fun xs hq => ⟨itemRT_arr xs hq, entryRT_arr xs hq⟩)
    (fun m hr => ⟨itemRT_obj m hr, entryRT_obj m hr⟩)
    seqRT_nil
    (fun hd tl hp hq => seqRT_cons hd tl hp.1 hq)
    mapRT_nil
    (fun k v tl hp hr => mapRT_cons k v tl hp.2 hr)
    m

/-- The first token of a rendered item is an item opener. -/
theorem itemL_headTok (d : Doc) (i : Nat) :
    ∃ tl, (∃ v, itemL d i = (i, Tok.itemVal v) :: tl) ∨ itemL d i = (i, Tok.item) :: tl := by
  cases d with
  | scl s => exact ⟨[], Or.inl ⟨sIVal s, rfl⟩⟩
  | arr xs =>
    cases xs with
    | nil => exact ⟨[], Or.inl ⟨IVal.iarr0, rfl⟩⟩
    | cons x tl => exact ⟨itemL x (i+2) ++ listL tl (i+2), Or.inr rfl⟩
  | obj m =>
    cases m with
    | nil => exact ⟨[], Or.inl ⟨IVal.iobj0, rfl⟩⟩
    | cons k v tl => exact ⟨keyL k v (i+2) ++ mapL tl (i+2), Or.inr rfl⟩

/-- The first token of a rendered entry is an entry opener. -/
theorem keyL_headTok (k : String) (d : Doc) (i : Nat) :
    ∃ tl, (∃ v, keyL k d i = (i, Tok.keyVal k v) :: tl) ∨ keyL k d i = (i, Tok.key k) :: tl := by
  cases d with
  | scl s => exact ⟨[], Or.inl ⟨sIVal s, rfl⟩⟩
  | arr xs =>
    cases xs with
    | nil => exact ⟨[], Or.inl ⟨IVal.iarr0, rfl⟩⟩
    | cons x tl => exact ⟨itemL x (i+2) ++ listL tl (i+2), Or.inr rfl⟩
  | obj m =>
    cases m with
    | nil => exact ⟨[], Or.inl ⟨IVal.iobj0, rfl⟩⟩
    | cons k2 v tl => exact ⟨keyL k2 v (i+2) ++ mapL tl (i+2), Or.inr rfl⟩

/-- A nonempty rendered sequence parses as a node. -/
theorem parseNode_listL (x : Doc) (tl : DocList) (i : Nat) (rest : List Line) (fuel : Nat)
    (hf : 3 * ((listL (DocList.cons x tl) i).length + rest.length) + 3 ≤ fuel)
    (hlt : headLT rest i) :
    parseNode fuel (listL (DocList.cons x tl) i ++ rest) i
      = some (Doc.arr (DocList.cons x tl), rest) := by
  cases fuel with
  | zero => omega
  | succ f =>
    have hseq := seqRT_all (DocList.cons x tl) i rest f (by omega) hlt
    have hl2 : listL (DocList.cons x tl) i = itemL x i ++ listL tl i := rfl
    rw [hl2, List.append_assoc] at hseq
    show parseNode (f+1) ((itemL x i ++ listL tl i) ++ rest) i
        = some (Doc.arr (DocList.cons x tl), rest)
    rw [List.append_assoc]
    simp only [parseNode]
    rw [isItemHeadB_itemL x i (listL tl i ++ rest), if_pos rfl, hseq]
    rfl

/-- A nonempty rendered mapping parses as a node. -/
theorem parseNode_mapL (k : String) (v : Doc) (tl : DocMap) (i : Nat) (rest : List Line)
    (fuel : Nat)
    (hf : 3 * ((mapL (DocMap.cons k v tl) i).length + rest.length) + 3 ≤ fuel)
    (hlt : headLT rest i) :
    parseNode fuel (mapL (DocMap.cons k v tl) i ++ rest) i
      = some (Doc.obj (DocMap.cons k v tl), rest) := by
  cases fuel with
  | zero => omega
  | succ f =>
    have hmap := mapRT_all (DocMap.cons k v tl) i rest f (by omega) hlt
    have hl2 : mapL (DocMap.cons k v tl) i = keyL k v i ++ mapL tl i := rfl
    rw [hl2, List.append_assoc] at hmap
    show parseNode (f+1) ((keyL k v i ++ mapL tl i) ++ rest) i
        = some (Doc.obj (DocMap.cons k v tl), rest)
    rw [List.append_assoc]
    simp only [parseNode]
    rw [isItemHeadB_keyL k v i (mapL tl i ++ rest)]
    rw [if_neg Bool.false_ne_true]
    rw [isMapHeadB_keyL k v i (mapL tl i ++ rest), if_pos rfl, hmap]
    rfl

/-- Parsing the rendered line list of any document recovers the document. -/
theorem parseDocLines_docLines (d : Doc) : parseDocLines (docLines d) = some d := by
  cases d with
  | scl s =>
    show parseDocLines [(0, Tok.bare (sIVal s))] = some (Doc.scl s)
    simp [parseDocLines, ivalDoc_sIVal]
  | arr xs =>
    cases xs with
    | nil =>
      show parseDocLines [(0, Tok.bare IVal.iarr0)] = some (Doc.arr DocList.nil)
      simp [parseDocLines, ivalDoc]
    | cons x tl =>
      rcases itemL_headTok x 0 with ⟨tl0, hcase⟩
      rcases hcase with ⟨v, hh⟩ | hh
      · have hdl : docLines (Doc.arr (DocList.cons x tl))
            = (0, Tok.itemVal v) :: (tl0 ++ listL tl 0) := by
          show itemL x 0 ++ listL tl 0 = _
          rw [hh, List.cons_append]
        have hdlb : listL (DocList.cons x tl) 0 ++ []
            = (0, Tok.itemVal v) :: (tl0 ++ listL tl 0) := by
          rw [List.append_nil]
          show itemL x 0 ++ listL tl 0 = _
          rw [hh, List.cons_append]
        rw [hdl]
        simp only [parseDocLines]
        rw [← hdlb]
        have hnode : parseNode (3 * (listL (DocList.cons x tl) 0 ++ []).length + 3)
            (listL (DocList.cons x tl) 0 ++ []) 0 = some (Doc.arr (DocList.cons x tl), []) :=
          parseNode_listL x tl 0 [] _ (by simp) (by trivial)
        rw [hnode]
      · have hdl : docLines (Doc.arr (DocList.cons x tl))
            = (0, Tok.item) :: (tl0 ++ listL tl 0) := by
          show itemL x 0 ++ listL tl 0 = _
          rw [hh, List.cons_append]
        have hdlb : listL (DocList.cons x tl) 0 ++ []
            = (0, Tok.item) :: (tl0 ++ listL tl 0) := by
          rw [List.append_nil]
          show itemL x 0 ++ listL tl 0 = _
          rw [hh, List.cons_append]
        rw [hdl]
        simp only [parseDocLines]
        rw [← hdlb]
        have hnode : parseNode (3 * (listL (DocList.cons x tl) 0 ++ []).length + 3)
            (listL (DocList.cons x tl) 0 ++ []) 0 = some (Doc.arr (DocList.cons x tl), []) :=
          parseNode_listL x tl 0 [] _ (by simp) (by trivial)
        rw [hnode]
  | obj m =>
    cases m with
    | nil =>
      show parseDocLines [(0, Tok.bare IVal.iobj0)] = some (Doc.obj DocMap.nil)
      simp [parseDocLines, ivalDoc]
    | cons k v tl =>
      rcases keyL_headTok k v 0 with ⟨tl0, hcase⟩
      rcases hcase with ⟨w, hh⟩ | hh
      · have hdl : docLines (Doc.obj (DocMap.cons k v tl))
            = (0, Tok.keyVal k w) :: (tl0 ++ mapL tl 0) := by
          show keyL k v 0 ++ mapL tl 0 = _
          rw [hh, List.cons_append]
        have hdlb : mapL (DocMap.cons k v tl) 0 ++ []
            = (0, Tok.keyVal k w) :: (tl0 ++ mapL tl 0) := by
          rw [List.append_nil]
          show keyL k v 0 ++ mapL tl 0 = _
          rw [hh, List.cons_append]
        rw [hdl]
        simp only [parseDocLines]
        rw [← hdlb]
        have hnode : parseNode (3 * (mapL (DocMap.cons k v tl) 0 ++ []).length + 3)
            (mapL (DocMap.cons k v tl) 0 ++ []) 0 = some (Doc.obj (DocMap.cons k v tl), []) :=
          parseNode_mapL k v tl 0 [] _ (by simp) (by trivial)
        rw [hnode]
      · have hdl : docLines (Doc.obj (DocMap.cons k v tl))
            = (0, Tok.key k) :: (tl0 ++ mapL tl 0) := by
          show keyL k v 0 ++ mapL tl 0 = _
          rw [hh, List.cons_append]
        have hdlb : mapL (DocMap.cons k v tl) 0 ++ []
            = (0, Tok.key k) :: (tl0 ++ mapL tl 0) := by
          rw [List.append_nil]
          show keyL k v 0 ++ mapL tl 0 = _
          rw [hh, List.cons_append]
        rw [hdl]
        simp only [parseDocLines]
        rw [← hdlb]
        have hnode : parseNode (3 * (mapL (DocMap.cons k v tl) 0 ++ []).length + 3)
            (mapL (DocMap.cons k v tl) 0 ++ []) 0 = some (Doc.obj (DocMap.cons k v tl), []) :=
          parseNode_mapL k v tl 0 [] _ (by simp) (by trivial)
        rw [hnode]

/-- A document always renders to at least one line. -/
theorem docLines_ne_nil (d : Doc) : ∃ a tl, docLines d = a :: tl := by
  cases d with
  | scl s => exact ⟨(0, Tok.bare (sIVal s)), [], rfl⟩
  | arr xs =>
    cases xs with
    | nil => exact ⟨(0, Tok.bare IVal.iarr0), [], rfl⟩
    | cons x tl =>
      obtain ⟨t, tl', hh⟩ := itemL_head x 0
      refine ⟨(0, t), tl' ++ listL tl 0, ?_⟩
      show itemL x 0 ++ listL tl 0 = _
      rw [hh, List.cons_append]
  | obj m =>
    cases m with
    | nil => exact ⟨(0, Tok.bare IVal.iobj0), [], rfl⟩
    | cons k v tl =>
      obtain ⟨t, tl', hh⟩ := keyL_head k v 0
      refine ⟨(0, t), tl' ++ mapL tl 0, ?_⟩
      show keyL k v 0 ++ mapL tl 0 = _
      rw [hh, List.cons_append]

/-- The primary-format parser inverts the encoder. -/
theorem yamlParse_encode (d : Doc) : yamlParse (yamlEncode d) = some d := by
  obtain ⟨a, tl, hdl⟩ := docLines_ne_nil d
  unfold yamlParse yamlEncode
  rw [toLines_render (docLines d), hdl]
  show parseDocLines (a :: tl) = some d
  rw [← hdl]
  exact parseDocLines_docLines d

/-- C9: The spec claims `decode(encode(d)) = d` for every document `d` expressible in
the primary (YAML) content format. In the code the decode side is
`yaml.safe_load(f) or {}`, so a falsy document (null, false, 0, the empty string, an
empty sequence or an empty mapping) decodes to the empty mapping instead of itself;
for every other document the round trip holds exactly as claimed. -/
theorem readDecode_encode (d : Doc) :
    readDecodeYaml (yamlEncode d) = if isFalsy d then Doc.obj DocMap.nil else d := by
  unfold readDecodeYaml
  rw [yamlParse_encode]
  rfl

/-- The document `0` survives encoding and parsing, but the `or {}` coercion turns it
into the empty mapping, refuting the unconditional round-trip law. -/
theorem C9_counterexample :
    readDecodeYaml (yamlEncode (Doc.scl (Scalar.sint 0))) = Doc.obj DocMap.nil ∧
      Doc.scl (Scalar.sint 0) ≠ Doc.obj DocMap.nil := by
  constructor
  · decide
  · intro h
    exact Doc.noConfusion h
